import Mathlib

set_option maxRecDepth 10000

/-!
Verification development for the RFC822 address parser in lib/address.cc.

Strings are modelled as List Char. A C string is NUL-terminated, so the end
of the list plays the role of the terminating NUL and list members are
assumed distinct from the NUL character; the character predicates keep the
explicit NUL tests of the source so that they agree with the C tests on the
terminator position as well.
-/

/-- The node_type enumeration of address.cc.  EMPTY is the head sentinel of
the token chain; it is deleted before the chain is returned and never occurs
in a token sequence produced by the tokenizer. -/
inductive node_type where
  | EMPTY
  | ATOM
  | QUOTED_STRING
  | DOMAIN_LITERAL
  | COMMENT
  | LABRACKET
  | RABRACKET
  | AT
  | COMMA
  | SEMICOLON
  | COLON
  | ESCAPE
  | PERIOD
  | EOT
deriving DecidableEq

/-- A token: a node_type tag and the raw text slice (empty for the
single-character structural kinds).  The forward-linked anode chain of the
source is modelled as a List token; a position in the chain is the suffix of
the list starting at that node. -/
structure token where
  type : node_type
  str : List Char
deriving DecidableEq

/-- The match result struct of address.cc.  The source encodes failure as a
result whose next pointer is null; here a rule returns Option result, with
none for the failure sentinel, so next is only present on success. -/
structure result where
  next : List token
  str : List Char
  comment : List Char
  addr : List Char
deriving DecidableEq

/-- issymbol from address.cc: the structurally significant characters. -/
def issymbol (c : Char) : Bool :=
  c = '(' || c = ')' || c = '<' || c = '>' || c = '[' || c = ']' ||
  c = '@' || c = ',' || c = ';' || c = ':' || c = '\\' || c = '"' || c = '.'

/-- isctl from address.cc: (c >= 0 && c <= 31) || (c == 127).  Characters
128-255 are not control characters under either signedness convention. -/
def isctl (c : Char) : Bool := c.toNat ≤ 31 || c.toNat = 127

/-- The C library isspace in the default locale, as used by address.cc. -/
def isspace (c : Char) : Bool :=
  c = ' ' || c = '\t' || c = '\n' || c = '\x0b' || c = '\x0c' || c = '\r'

/-- isqtext from address.cc; note CR is defined as the line-feed character
in the source. -/
def isqtext (c : Char) : Bool := !(c = '\x00' || c = '"' || c = '\\' || c = '\n')

/-- isdtext from address.cc. -/
def isdtext (c : Char) : Bool :=
  !(c = '\x00' || c = '[' || c = ']' || c = '\\' || c = '\n')

/-- isqpair from address.cc: an escape character followed by a character
that is not the NUL terminator (one character of lookahead). -/
def isqpair : List Char → Bool
  | c :: d :: _ => c = '\\' && d ≠ '\x00'
  | _ => false

/-- isatom from address.cc. -/
def isatom (c : Char) : Bool := !(isspace c || issymbol c || isctl c)

/-- tokenize_atom: a maximal run of atom characters; fails when the current
character is not an atom character.  Returns the token and the rest of the
input (the advanced cursor). -/
def tokenize_atom (s : List Char) : Option (token × List Char) :=
  match s with
  | [] => none
  | c :: _ =>
    if isatom c then some (⟨node_type.ATOM, s.takeWhile isatom⟩, s.dropWhile isatom)
    else none

/-- The scanning loop of tokenize_comment.  acc is the text consumed so far
(from the opening parenthesis), count the nesting depth.  The loop is
entered at the opening parenthesis with count 0; quoted pairs are opaque,
an unescaped line feed is a lexical error, and balancing back to depth 0
ends the token just past the closing parenthesis. -/
def comment_loop (acc : List Char) (count : Nat) : List Char → Option (List Char × List Char)
  | [] => none
  | c :: rest =>
    if isqpair (c :: rest) then
      match rest with
      | [] => none
      | d :: rest2 => comment_loop (acc ++ [c, d]) count rest2
    else if c = '(' then comment_loop (acc ++ [c]) (count + 1) rest
    else if c = ')' then
      if count = 1 then some (acc ++ [c], rest)
      else comment_loop (acc ++ [c]) (count - 1) rest
    else if c = '\n' then none
    else comment_loop (acc ++ [c]) count rest

/-- tokenize_comment from address.cc. -/
def tokenize_comment (s : List Char) : Option (token × List Char) :=
  match s with
  | c :: _ =>
    if c = '(' then (comment_loop [] 0 s).map fun p => (⟨node_type.COMMENT, p.1⟩, p.2)
    else none
  | [] => none

/-- The scanning loop of tokenize_quoted_string: quoted-text characters and
quoted pairs are consumed; the loop ends successfully at a closing quote,
and any other stop (line feed, lone trailing escape, end of input) is a
lexical error. -/
def qstring_loop (acc : List Char) : List Char → Option (List Char × List Char)
  | [] => none
  | c :: rest =>
    if isqtext c then qstring_loop (acc ++ [c]) rest
    else if isqpair (c :: rest) then
      match rest with
      | [] => none
      | d :: rest2 => qstring_loop (acc ++ [c, d]) rest2
    else if c = '"' then some (acc ++ [c], rest)
    else none

/-- tokenize_quoted_string from address.cc; the token text includes both
quote characters. -/
def tokenize_quoted_string (s : List Char) : Option (token × List Char) :=
  match s with
  | c :: rest =>
    if c = '"' then (qstring_loop [c] rest).map fun p => (⟨node_type.QUOTED_STRING, p.1⟩, p.2)
    else none
  | [] => none

/-- The domain-text scanning loop of tokenize_domain_literal: consumes
domain-text characters and quoted pairs, returns the rest of the input at
the first character that is neither. -/
def dtext_loop : List Char → List Char
  | [] => []
  | c :: rest =>
    if isdtext c then dtext_loop rest
    else if isqpair (c :: rest) then
      match rest with
      | [] => c :: rest
      | _ :: rest2 => dtext_loop rest2
    else c :: rest

/-- tokenize_domain_literal from address.cc: skip leading whitespace, accept
domain text and quoted pairs, skip trailing whitespace, require a closing
square bracket.  As in the source, the returned cursor is left AT the
closing bracket (the source returns anode(DOMAIN_LITERAL, start, ptr)
without advancing ptr past the bracket), and the token text therefore also
excludes the closing bracket. -/
def tokenize_domain_literal (s : List Char) : Option (token × List Char) :=
  match s with
  | c :: rest =>
    if c = '[' then
      let r3 := (dtext_loop (rest.dropWhile isspace)).dropWhile isspace
      match r3 with
      | d :: _ =>
        if d = ']' then some (⟨node_type.DOMAIN_LITERAL, s.take (s.length - r3.length)⟩, r3)
        else none
      | [] => none
    else none
  | [] => none

/-- The static tokenize(const char \x26) overload of address.cc: skip
whitespace, emit the end marker at end of input, emit single-character
structural tokens, and dispatch to the comment, domain-literal,
quoted-string and atom scanners.  The NUL input character cannot occur as
a list member (it is the C string terminator, modelled by the end of the
list). -/
def tokenize1 (s0 : List Char) : Option (token × List Char) :=
  match s0.dropWhile isspace with
  | [] => some (⟨node_type.EOT, []⟩, [])
  | c :: rest =>
    if c = '<' then some (⟨node_type.LABRACKET, []⟩, rest)
    else if c = '>' then some (⟨node_type.RABRACKET, []⟩, rest)
    else if c = '@' then some (⟨node_type.AT, []⟩, rest)
    else if c = ',' then some (⟨node_type.COMMA, []⟩, rest)
    else if c = ';' then some (⟨node_type.SEMICOLON, []⟩, rest)
    else if c = ':' then some (⟨node_type.COLON, []⟩, rest)
    else if c = '\\' then some (⟨node_type.ESCAPE, []⟩, rest)
    else if c = '.' then some (⟨node_type.PERIOD, []⟩, rest)
    else if c = '(' then tokenize_comment (c :: rest)
    else if c = '[' then tokenize_domain_literal (c :: rest)
    else if c = '"' then tokenize_quoted_string (c :: rest)
    else tokenize_atom (c :: rest)

theorem length_dropWhile_le (p : Char → Bool) (s : List Char) :
    (s.dropWhile p).length ≤ s.length :=
  (List.dropWhile_suffix p).length_le

theorem comment_loop_length {acc : List Char} {count : Nat} {s txt rest : List Char}
    (h : comment_loop acc count s = some (txt, rest)) : rest.length < s.length := by
  induction acc, count, s using comment_loop.induct generalizing txt rest with
  | case1 acc count => rw [comment_loop.eq_def] at h; simp at h
  | case2 acc count c hqp => rw [comment_loop.eq_def] at h; simp [hqp] at h
  | case3 acc count c d tail hqp ih =>
    rw [comment_loop.eq_def] at h
    simp only [hqp, if_true] at h
    have := ih h
    simp only [List.length_cons]
    omega
  | case4 acc count tail hqp ih =>
    rw [comment_loop.eq_def] at h
    simp [hqp] at h
    have := ih h
    simp only [List.length_cons]
    omega
  | case5 acc tail hqp hne =>
    rw [comment_loop.eq_def] at h
    simp [hqp] at h
    obtain ⟨h1, h2⟩ := h
    simp [← h2]
  | case6 acc count tail hcnt hqp hne ih =>
    rw [comment_loop.eq_def] at h
    simp [hqp, hcnt] at h
    have := ih h
    simp only [List.length_cons]
    omega
  | case7 acc count tail hqp =>
    rw [comment_loop.eq_def] at h
    simp [hqp] at h
  | case8 acc count c tail hqp hne1 hne2 hne3 ih =>
    rw [comment_loop.eq_def] at h
    simp [hqp, hne1, hne2, hne3] at h
    have := ih h
    simp only [List.length_cons]
    omega

theorem qstring_loop_length {acc : List Char} {s txt rest : List Char}
    (h : qstring_loop acc s = some (txt, rest)) : rest.length < s.length := by
  induction acc, s using qstring_loop.induct generalizing txt rest with
  | case1 acc => rw [qstring_loop.eq_def] at h; simp at h
  | case2 acc c tail hqt ih =>
    rw [qstring_loop.eq_def] at h
    simp only [hqt, if_true] at h
    have := ih h
    simp only [List.length_cons]
    omega
  | case3 acc c hqt hqp =>
    rw [qstring_loop.eq_def] at h
    simp [hqt, hqp] at h
  | case4 acc c hqt d tail hqp ih =>
    rw [qstring_loop.eq_def] at h
    simp only [hqt, hqp, if_true, Bool.false_eq_true, if_false] at h
    have := ih h
    simp only [List.length_cons]
    omega
  | case5 acc tail hqt hqp =>
    rw [qstring_loop.eq_def] at h
    simp [hqt, hqp] at h
    obtain ⟨h1, h2⟩ := h
    simp [← h2]
  | case6 acc c tail hqt hqp hne =>
    rw [qstring_loop.eq_def] at h
    simp [hqt, hqp, hne] at h

theorem dtext_loop_suffix (s : List Char) : dtext_loop s <:+ s := by
  induction s using dtext_loop.induct with
  | case1 => simp [dtext_loop]
  | case2 c tail hdt ih =>
    rw [dtext_loop.eq_def]
    simp only [hdt, if_true]
    exact ih.trans (List.suffix_cons c tail)
  | case3 c hdt hqp => simp [dtext_loop, hdt, hqp]
  | case4 c hdt d tail hqp ih =>
    rw [dtext_loop.eq_def]
    simp only [hdt, hqp, if_true, Bool.false_eq_true, if_false]
    exact (ih.trans (List.suffix_cons d tail)).trans (List.suffix_cons c (d :: tail))
  | case5 c tail hdt hqp =>
    rw [dtext_loop.eq_def]
    simp [hdt, hqp]

theorem tokenize_comment_length {s : List Char} {t : token} {rest : List Char}
    (h : tokenize_comment s = some (t, rest)) : rest.length < s.length := by
  rcases s with _ | ⟨c, s1⟩
  · simp [tokenize_comment] at h
  · rw [tokenize_comment] at h
    by_cases hc : c = '('
    · simp only [hc, if_true] at h
      simp only [Option.map_eq_some'] at h
      obtain ⟨⟨txt, r2⟩, hcl, hf⟩ := h
      have := comment_loop_length hcl
      have hr : rest = r2 := by
        have := congrArg Prod.snd hf
        simpa using this.symm
      rw [hr]
      exact this
    · simp [hc] at h

theorem tokenize_quoted_string_length {s : List Char} {t : token} {rest : List Char}
    (h : tokenize_quoted_string s = some (t, rest)) : rest.length < s.length := by
  rcases s with _ | ⟨c, s1⟩
  · simp [tokenize_quoted_string] at h
  · rw [tokenize_quoted_string] at h
    by_cases hc : c = '"'
    · simp only [hc, if_true] at h
      simp only [Option.map_eq_some'] at h
      obtain ⟨⟨txt, r2⟩, hql, hf⟩ := h
      have := qstring_loop_length hql
      have hr : rest = r2 := by
        have := congrArg Prod.snd hf
        simpa using this.symm
      rw [hr]
      simp only [List.length_cons]
      omega
    · simp [hc] at h

theorem tokenize_domain_literal_length {s : List Char} {t : token} {rest : List Char}
    (h : tokenize_domain_literal s = some (t, rest)) : rest.length < s.length := by
  rcases s with _ | ⟨c, s1⟩
  · simp [tokenize_domain_literal] at h
  · rw [tokenize_domain_literal] at h
    by_cases hc : c = '['
    · simp only [hc, if_true] at h
      rcases hr3 : (dtext_loop (s1.dropWhile isspace)).dropWhile isspace with _ | ⟨d, r4⟩
      · simp only [hr3] at h; simp at h
      · simp only [hr3] at h
        by_cases hd : d = ']'
        · simp only [hd, if_true] at h
          simp only [Option.some.injEq, Prod.mk.injEq] at h
          obtain ⟨hh1, hh2⟩ := h
          have hs1 : (s1.dropWhile isspace).length ≤ s1.length :=
            length_dropWhile_le isspace s1
          have hs2 := (dtext_loop_suffix (s1.dropWhile isspace)).length_le
          have hs3 := length_dropWhile_le isspace (dtext_loop (s1.dropWhile isspace))
          rw [hr3] at hs3
          rw [← hh2]
          simp only [List.length_cons] at *
          omega
        · simp [hd] at h
    · simp [hc] at h

theorem tokenize_atom_length {s : List Char} {t : token} {rest : List Char}
    (h : tokenize_atom s = some (t, rest)) : rest.length < s.length := by
  rcases s with _ | ⟨c, s1⟩
  · simp [tokenize_atom] at h
  · rw [tokenize_atom] at h
    by_cases ha : isatom c
    · simp only [ha, if_true, Option.some.injEq, Prod.mk.injEq] at h
      obtain ⟨hh1, hh2⟩ := h
      rw [← hh2, List.dropWhile]
      simp only [ha]
      have := length_dropWhile_le isatom s1
      simp only [List.length_cons]
      omega
    · simp [ha] at h

theorem tokenize1_progress {s : List Char} {t : token} {rest : List Char}
    (h : tokenize1 s = some (t, rest)) (ht : t.type ≠ node_type.EOT) :
    rest.length < s.length := by
  rw [tokenize1] at h
  have hdrop : (s.dropWhile isspace).length ≤ s.length := length_dropWhile_le isspace s
  rcases hs : s.dropWhile isspace with _ | ⟨c, srest⟩
  · rw [hs] at h
    simp at h
    obtain ⟨h1, h2⟩ := h
    rw [← h1] at ht
    simp at ht
  · rw [hs] at h
    rw [hs] at hdrop
    simp only [List.length_cons] at hdrop
    by_cases h1 : c = '<'
    · simp [h1] at h
      obtain ⟨hh1, hh2⟩ := h
      subst hh2
      omega
    · by_cases h2 : c = '>'
      · simp [h1, h2] at h
        obtain ⟨hh1, hh2⟩ := h
        subst hh2
        omega
      · by_cases h3 : c = '@'
        · simp [h1, h2, h3] at h
          obtain ⟨hh1, hh2⟩ := h
          subst hh2
          omega
        · by_cases h4 : c = ','
          · simp [h1, h2, h3, h4] at h
            obtain ⟨hh1, hh2⟩ := h
            subst hh2
            omega
          · by_cases h5 : c = ';'
            · simp [h1, h2, h3, h4, h5] at h
              obtain ⟨hh1, hh2⟩ := h
              subst hh2
              omega
            · by_cases h6 : c = ':'
              · simp [h1, h2, h3, h4, h5, h6] at h
                obtain ⟨hh1, hh2⟩ := h
                subst hh2
                omega
              · by_cases h7 : c = '\\'
                · simp [h1, h2, h3, h4, h5, h6, h7] at h
                  obtain ⟨hh1, hh2⟩ := h
                  subst hh2
                  omega
                · by_cases h8 : c = '.'
                  · simp [h1, h2, h3, h4, h5, h6, h7, h8] at h
                    obtain ⟨hh1, hh2⟩ := h
                    subst hh2
                    omega
                  · by_cases h9 : c = '('
                    · simp [h9] at h
                      have := tokenize_comment_length h
                      simp only [List.length_cons] at this
                      omega
                    · by_cases h10 : c = '['
                      · simp [h9, h10] at h
                        have := tokenize_domain_literal_length h
                        simp only [List.length_cons] at this
                        omega
                      · by_cases h11 : c = '"'
                        · simp [h9, h10, h11] at h
                          have := tokenize_quoted_string_length h
                          simp only [List.length_cons] at this
                          omega
                        · simp [h1, h2, h3, h4, h5, h6, h7, h8, h9, h10, h11] at h
                          have := tokenize_atom_length h
                          simp only [List.length_cons] at this
                          omega

/-- The anode* tokenize(mystring) overload of address.cc: repeatedly invoke
the single-token tokenizer, appending tokens to the chain, stopping
successfully when the end marker is produced (the end marker is the last
token of the chain); a failure of the single-token tokenizer fails the
whole tokenization, producing no token sequence. -/
def tokenize (s : List Char) : Option (List token) :=
  match h : tokenize1 s with
  | none => none
  | some (t, rest) =>
    if ht : t.type = node_type.EOT then some [t]
    else
      match tokenize rest with
      | none => none
      | some ts => some (t :: ts)
termination_by s.length
decreasing_by exact tokenize1_progress h ht


/-- Abbreviation turning a string literal into the List Char model of a C
string. -/
def toL (s : String) : List Char := s.toList

/-- The escaping scan of quote from address.cc: every symbol character is
preceded by an escape character. -/
def quote_escape : List Char → List Char
  | [] => []
  | c :: rest =>
    if issymbol c then '\\' :: c :: quote_escape rest
    else c :: quote_escape rest

/-- quote from address.cc: escape the symbol characters and, when any
escaping happened, wrap the text in quote characters; otherwise the input
is returned unchanged. -/
def quote (s : List Char) : List Char :=
  if s.any issymbol then '"' :: (quote_escape s ++ ['"']) else s

/-- The quoted-pair resolving scan of unquote from address.cc: an escape
character followed by another character is replaced by that character
alone.  In the source the lookahead at the last position inspects the byte
after the scanned range; for the bracketing-quotes case that byte is the
closing quote, so a quoted string whose content ends in an unpaired escape
would make the source scan past the end of the buffer (undefined
behaviour, unreachable from parse_addresses because the tokenizer never
produces such a quoted string).  The model keeps a trailing lone escape. -/
def unquote_pairs : List Char → List Char
  | [] => []
  | c :: rest =>
    if isqpair (c :: rest) then
      match rest with
      | [] => [c]
      | d :: rest2 => d :: unquote_pairs rest2
    else c :: unquote_pairs rest

/-- unquote from address.cc: strip bracketing quote characters, then
resolve quoted pairs.  The source tests in[0] and in[length-1] without a
length check; for length below 2 that test either fails (empty string) or
underflows the length (undefined behaviour, unreachable because unquote is
only applied to quoted-string tokens, which have length at least 2), so
the model conditions the stripping on length at least 2. -/
def unquote (s : List Char) : List Char :=
  if 2 ≤ s.length ∧ s.head? = some '"' ∧ s.getLast? = some '"' then
    unquote_pairs ((s.drop 1).take (s.length - 2))
  else unquote_pairs s

/-- skipcomment from address.cc: consume consecutive comment tokens,
appending a space and the comment text to the accumulator, and return the
first non-comment position together with the extended accumulator. -/
def skipcomment : List token → List Char → List token × List Char
  | [], comment => ([], comment)
  | t :: ts, comment =>
    if t.type = node_type.COMMENT then skipcomment ts (comment ++ ' ' :: t.str)
    else (t :: ts, comment)

theorem skipcomment_suffix (ts : List token) (comment : List Char) :
    (skipcomment ts comment).1 <:+ ts := by
  induction ts generalizing comment with
  | nil => simp [skipcomment]
  | cons t ts ih =>
    rw [skipcomment]
    by_cases h : t.type = node_type.COMMENT
    · simp only [h, if_true]
      exact (ih _).trans (List.suffix_cons t ts)
    · simp [h]

theorem skipcomment_length (ts : List token) (comment : List Char) :
    (skipcomment ts comment).1.length ≤ ts.length :=
  (skipcomment_suffix ts comment).length_le

/-- match_sub_domain from address.cc: optional leading comments, then an
atom or domain-literal token; display and canonical text are the token
text and the consumed comments are reported in the comment field. -/
def match_sub_domain (ts : List token) : Option result :=
  match skipcomment ts [] with
  | (node, comment) =>
    match node with
    | t :: rest =>
      if t.type = node_type.ATOM ∨ t.type = node_type.DOMAIN_LITERAL then
        some ⟨rest, t.str, comment, t.str⟩
      else none
    | [] => none

theorem match_sub_domain_suffix {ts : List token} {r : result}
    (h : match_sub_domain ts = some r) : r.next <:+ ts := by
  rw [match_sub_domain] at h
  rcases hsk : skipcomment ts [] with ⟨node, comment⟩
  rw [hsk] at h
  dsimp only at h
  have hsuf : node <:+ ts := by
    have := skipcomment_suffix ts []
    rw [hsk] at this
    exact this
  rcases node with _ | ⟨t, rest⟩
  · simp at h
  · by_cases htp : t.type = node_type.ATOM ∨ t.type = node_type.DOMAIN_LITERAL
    · simp only [htp, if_true, Option.some.injEq] at h
      rw [← h]
      exact (List.suffix_cons t rest).trans hsuf
    · simp [htp] at h

theorem match_sub_domain_length {ts : List token} {r : result}
    (h : match_sub_domain ts = some r) : r.next.length < ts.length := by
  rw [match_sub_domain] at h
  rcases hsk : skipcomment ts [] with ⟨node, comment⟩
  rw [hsk] at h
  dsimp only at h
  have hlen : node.length ≤ ts.length := by
    have := skipcomment_length ts []
    rw [hsk] at this
    exact this
  rcases node with _ | ⟨t, rest⟩
  · simp at h
  · by_cases htp : t.type = node_type.ATOM ∨ t.type = node_type.DOMAIN_LITERAL
    · simp only [htp, if_true, Option.some.injEq] at h
      rw [← h]
      simp only [List.length_cons] at hlen
      simp only []
      omega
    · simp [htp] at h

/-- match_word from address.cc: optional leading comments, then an atom
(display and canonical text are the raw text) or a quoted string (the
canonical text is the unquoted content, the display text is that content
re-quoted). -/
def match_word (ts : List token) : Option result :=
  match skipcomment ts [] with
  | (node, comment) =>
    match node with
    | t :: rest =>
      if t.type = node_type.ATOM then some ⟨rest, t.str, comment, t.str⟩
      else if t.type = node_type.QUOTED_STRING then
        some ⟨rest, quote (unquote t.str), comment, unquote t.str⟩
      else none
    | [] => none

theorem match_word_suffix {ts : List token} {r : result}
    (h : match_word ts = some r) : r.next <:+ ts := by
  rw [match_word] at h
  rcases hsk : skipcomment ts [] with ⟨node, comment⟩
  rw [hsk] at h
  dsimp only at h
  have hsuf : node <:+ ts := by
    have := skipcomment_suffix ts []
    rw [hsk] at this
    exact this
  rcases node with _ | ⟨t, rest⟩
  · simp at h
  · dsimp only at h
    have hstep : rest <:+ ts := (List.suffix_cons t rest).trans hsuf
    by_cases h1 : t.type = node_type.ATOM
    · rw [if_pos h1] at h
      simp only [Option.some.injEq] at h
      rw [← h]
      exact hstep
    · by_cases h2 : t.type = node_type.QUOTED_STRING
      · rw [if_neg h1, if_pos h2] at h
        simp only [Option.some.injEq] at h
        rw [← h]
        exact hstep
      · rw [if_neg h1, if_neg h2] at h
        exact absurd h (by simp)

theorem match_word_length {ts : List token} {r : result}
    (h : match_word ts = some r) : r.next.length < ts.length := by
  rw [match_word] at h
  rcases hsk : skipcomment ts [] with ⟨node, comment⟩
  rw [hsk] at h
  dsimp only at h
  have hlen : node.length ≤ ts.length := by
    have := skipcomment_length ts []
    rw [hsk] at this
    exact this
  rcases node with _ | ⟨t, rest⟩
  · simp at h
  · dsimp only at h
    simp only [List.length_cons] at hlen
    by_cases h1 : t.type = node_type.ATOM
    · rw [if_pos h1] at h
      simp only [Option.some.injEq] at h
      rw [← h]
      simp only []
      omega
    · by_cases h2 : t.type = node_type.QUOTED_STRING
      · rw [if_neg h1, if_pos h2] at h
        simp only [Option.some.injEq] at h
        rw [← h]
        simp only []
        omega
      · rw [if_neg h1, if_neg h2] at h
        exact absurd h (by simp)

/-- The accumulation loop of match_domain from address.cc: repeatedly skip
comments, then consume a PERIOD and a further sub-domain, extending the
display and canonical text with a period and the contribution of the new
sub-domain; comments accumulate in a loop-local accumulator.  A period not
followed by a sub-domain is left unconsumed.  -/
def domain_loop (r : result) (comment : List Char) : result × List Char :=
  match h0 : skipcomment r.next comment with
  | (node, comment1) =>
    match node with
    | [] => ({ r with next := node }, comment1)
    | t :: rest =>
      if t.type = node_type.PERIOD then
        match h1 : match_sub_domain rest with
        | some r1 =>
          domain_loop ⟨r1.next, r.str ++ '.' :: r1.str, r.comment, r.addr ++ '.' :: r1.addr⟩
            (comment1 ++ r1.comment)
        | none => ({ r with next := node }, comment1)
      else ({ r with next := node }, comment1)
termination_by r.next.length
decreasing_by
  have ha := skipcomment_length r.next comment
  rw [h0] at ha
  simp at ha
  have hb := match_sub_domain_length h1
  omega

/-- The token sequence ends in an end-marker token. -/
def LastEOT (ts : List token) : Prop :=
  ∃ l e, ts = l ++ [e] ∧ e.type = node_type.EOT

/-- Relation between the tokens a rule was given and the position it
returns: the position is a suffix of the input, and if the input ended in
the end marker then so does the returned position (in particular the
returned position is then nonempty: the end marker is never consumed). -/
def Keeps (ts out : List token) : Prop :=
  out <:+ ts ∧ (LastEOT ts → LastEOT out)

theorem LastEOT.ne_nil {ts : List token} (h : LastEOT ts) : ts ≠ [] := by
  obtain ⟨l, e, h1, h2⟩ := h
  simp [h1]

theorem lastEOT_cons {t : token} {rest : List token} (h : LastEOT (t :: rest))
    (hne : t.type ≠ node_type.EOT) : LastEOT rest := by
  obtain ⟨l, e, h1, h2⟩ := h
  rcases l with _ | ⟨x, l'⟩
  · simp at h1
    rw [h1.1] at hne
    exact absurd h2 hne
  · simp at h1
    exact ⟨l', e, h1.2, h2⟩

theorem Keeps.refl (ts : List token) : Keeps ts ts :=
  ⟨List.suffix_refl ts, fun h => h⟩

theorem Keeps.trans {a b c : List token} (h1 : Keeps a b) (h2 : Keeps b c) :
    Keeps a c :=
  ⟨h2.1.trans h1.1, fun h => h2.2 (h1.2 h)⟩

theorem keeps_cons {t : token} {rest : List token} (h : t.type ≠ node_type.EOT) :
    Keeps (t :: rest) rest :=
  ⟨List.suffix_cons t rest, fun he => lastEOT_cons he h⟩

theorem skipcomment_keeps (ts : List token) (comment : List Char) :
    Keeps ts (skipcomment ts comment).1 := by
  induction ts generalizing comment with
  | nil => simpa [skipcomment] using Keeps.refl []
  | cons t ts ih =>
    rw [skipcomment]
    by_cases h : t.type = node_type.COMMENT
    · simp only [h, if_true]
      have hne : t.type ≠ node_type.EOT := by rw [h]; intro hc; cases hc
      exact (keeps_cons hne).trans (ih _)
    · simpa [h] using Keeps.refl (t :: ts)

theorem match_sub_domain_keeps {ts : List token} {r : result}
    (h : match_sub_domain ts = some r) : Keeps ts r.next := by
  rw [match_sub_domain] at h
  rcases hsk : skipcomment ts [] with ⟨node, comment⟩
  rw [hsk] at h
  dsimp only at h
  have hkp : Keeps ts node := by
    have := skipcomment_keeps ts []
    rw [hsk] at this
    exact this
  rcases node with _ | ⟨t, rest⟩
  · simp at h
  · dsimp only at h
    by_cases htp : t.type = node_type.ATOM ∨ t.type = node_type.DOMAIN_LITERAL
    · rw [if_pos htp] at h
      simp only [Option.some.injEq] at h
      rw [← h]
      have hne : t.type ≠ node_type.EOT := by
        rcases htp with h1 | h1 <;> rw [h1] <;> intro hc <;> cases hc
      exact hkp.trans (keeps_cons hne)
    · rw [if_neg htp] at h
      exact absurd h (by simp)

theorem match_word_keeps {ts : List token} {r : result}
    (h : match_word ts = some r) : Keeps ts r.next := by
  rw [match_word] at h
  rcases hsk : skipcomment ts [] with ⟨node, comment⟩
  rw [hsk] at h
  dsimp only at h
  have hkp : Keeps ts node := by
    have := skipcomment_keeps ts []
    rw [hsk] at this
    exact this
  rcases node with _ | ⟨t, rest⟩
  · simp at h
  · dsimp only at h
    by_cases h1 : t.type = node_type.ATOM
    · rw [if_pos h1] at h
      simp only [Option.some.injEq] at h
      rw [← h]
      have hne : t.type ≠ node_type.EOT := by rw [h1]; intro hc; cases hc
      exact hkp.trans (keeps_cons hne)
    · by_cases h2 : t.type = node_type.QUOTED_STRING
      · rw [if_neg h1, if_pos h2] at h
        simp only [Option.some.injEq] at h
        rw [← h]
        have hne : t.type ≠ node_type.EOT := by rw [h2]; intro hc; cases hc
        exact hkp.trans (keeps_cons hne)
      · rw [if_neg h1, if_neg h2] at h
        exact absurd h (by simp)

theorem domain_loop_keeps :
    ∀ (n : Nat) (r : result) (comment : List Char), r.next.length ≤ n →
      Keeps r.next (domain_loop r comment).1.next := by
  intro n
  induction n with
  | zero =>
    intro r comment hn
    rw [domain_loop.eq_def]
    split
    next node comment1 h0 =>
      have hskl := skipcomment_length r.next comment
      rw [h0] at hskl
      dsimp only at hskl
      have hsks : Keeps r.next node := by
        have := skipcomment_keeps r.next comment
        rw [h0] at this
        exact this
      rcases node with _ | ⟨t, rest⟩
      · dsimp only
        exact hsks
      · exfalso
        simp only [List.length_cons] at hskl
        omega
  | succ n ih =>
    intro r comment hn
    rw [domain_loop.eq_def]
    split
    next node comment1 h0 =>
      have hskl := skipcomment_length r.next comment
      rw [h0] at hskl
      dsimp only at hskl
      have hsks : Keeps r.next node := by
        have := skipcomment_keeps r.next comment
        rw [h0] at this
        exact this
      rcases node with _ | ⟨t, rest⟩
      · dsimp only
        exact hsks
      · dsimp only
        by_cases htp : t.type = node_type.PERIOD
        · rw [if_pos htp]
          split
          next r1 h1 =>
            have hlen := match_sub_domain_length h1
            have hrec := ih ⟨r1.next, r.str ++ '.' :: r1.str, r.comment,
              r.addr ++ '.' :: r1.addr⟩ (comment1 ++ r1.comment)
              (by
                show r1.next.length ≤ n
                simp only [List.length_cons] at hskl
                omega)
            have hsd := match_sub_domain_keeps h1
            have hne : t.type ≠ node_type.EOT := by rw [htp]; intro hc; cases hc
            exact (hsks.trans ((keeps_cons hne).trans hsd)).trans hrec
          next h1 =>
            exact hsks
        · rw [if_neg htp]
          exact hsks

theorem domain_loop_keeps_all (r : result) (comment : List Char) :
    Keeps r.next (domain_loop r comment).1.next :=
  domain_loop_keeps r.next.length r comment (Nat.le_refl _)

/-- match_domain from address.cc: a sub-domain followed by the period
accumulation loop; the loop-local comment accumulator is appended to the
comment field at the end. -/
def match_domain (ts : List token) : Option result :=
  match match_sub_domain ts with
  | none => none
  | some r =>
    match domain_loop r [] with
    | (r2, comment) => some { r2 with comment := r2.comment ++ comment }

theorem match_domain_keeps {ts : List token} {r : result}
    (h : match_domain ts = some r) : Keeps ts r.next := by
  rw [match_domain] at h
  rcases hsd : match_sub_domain ts with _ | r0
  · rw [hsd] at h; exact absurd h (by simp)
  · rw [hsd] at h
    dsimp only at h
    rcases hdl : domain_loop r0 [] with ⟨r2, comment⟩
    rw [hdl] at h
    dsimp only at h
    simp only [Option.some.injEq] at h
    have hk1 := match_sub_domain_keeps hsd
    have hk2 := domain_loop_keeps_all r0 []
    rw [hdl] at hk2
    rw [← h]
    exact hk1.trans hk2

theorem match_domain_length {ts : List token} {r : result}
    (h : match_domain ts = some r) : r.next.length < ts.length := by
  rw [match_domain] at h
  rcases hsd : match_sub_domain ts with _ | r0
  · rw [hsd] at h; exact absurd h (by simp)
  · rw [hsd] at h
    dsimp only at h
    rcases hdl : domain_loop r0 [] with ⟨r2, comment⟩
    rw [hdl] at h
    dsimp only at h
    simp only [Option.some.injEq] at h
    have hk1 := match_sub_domain_length hsd
    have hk2 := (domain_loop_keeps_all r0 []).1.length_le
    rw [hdl] at hk2
    dsimp only at hk2
    rw [← h]
    dsimp only
    omega

/-- The 1#( AT domain ) loop of match_route from address.cc: while the
current token is an AT, consume it and match a domain, accumulating the
display text and the comments and counting the domains; a missing domain
after an AT fails the whole rule (MATCHRULE inside the loop). -/
def route_loop (node : List token) (str comment : List Char) (count : Nat) :
    Option (List token × List Char × List Char × Nat) :=
  match node with
  | [] => some ([], str, comment, count)
  | t :: rest =>
    if t.type = node_type.AT then
      match h1 : match_domain rest with
      | some r => route_loop r.next (str ++ '@' :: r.str) (comment ++ r.comment) (count + 1)
      | none => none
    else some (t :: rest, str, comment, count)
termination_by node.length
decreasing_by
  have := match_domain_length h1
  simp only [List.length_cons]
  omega

theorem route_loop_keeps :
    ∀ (n : Nat) (node : List token) (str comment : List Char) (count : Nat)
      (out : List token × List Char × List Char × Nat),
      node.length ≤ n → route_loop node str comment count = some out →
      Keeps node out.1 := by
  intro n
  induction n with
  | zero =>
    intro node str comment count out hn h
    rcases node with _ | ⟨t, rest⟩
    · rw [route_loop] at h
      simp only [Option.some.injEq] at h
      rw [← h]
      exact Keeps.refl []
    · exfalso
      simp at hn
  | succ n ih =>
    intro node str comment count out hn h
    rcases node with _ | ⟨t, rest⟩
    · rw [route_loop] at h
      simp only [Option.some.injEq] at h
      rw [← h]
      exact Keeps.refl []
    · rw [route_loop.eq_def] at h
      dsimp only at h
      by_cases hat : t.type = node_type.AT
      · rw [if_pos hat] at h
        rcases hd : match_domain rest with _ | r
        · rw [hd] at h
          exact absurd h (by simp)
        · rw [hd] at h
          have hdk := match_domain_keeps hd
          have hdl := match_domain_length hd
          have hne : t.type ≠ node_type.EOT := by rw [hat]; intro hc; cases hc
          have hrec := ih r.next (str ++ '@' :: r.str) (comment ++ r.comment) (count + 1) out
            (by simp only [List.length_cons] at hn; omega) h
          exact ((keeps_cons hne).trans hdk).trans hrec
      · rw [if_neg hat] at h
        simp only [Option.some.injEq] at h
        rw [← h]
        exact Keeps.refl (t :: rest)

theorem route_loop_keeps_all {node : List token} {str comment : List Char} {count : Nat}
    {out : List token × List Char × List Char × Nat}
    (h : route_loop node str comment count = some out) : Keeps node out.1 :=
  route_loop_keeps node.length node str comment count out (Nat.le_refl _) h

/-- match_route from address.cc: one or more AT-domain pairs, then optional
comments and a mandatory COLON; the rule contributes no canonical text
(the addr field of the returned result is empty). -/
def match_route (ts : List token) : Option result :=
  match route_loop ts [] [] 0 with
  | none => none
  | some (node, str, comment, count) =>
    if count = 0 then none
    else
      match skipcomment node comment with
      | (node1, comment1) =>
        match node1 with
        | t :: rest =>
          if t.type = node_type.COLON then some ⟨rest, str, comment1, []⟩ else none
        | [] => none

theorem match_route_keeps {ts : List token} {r : result}
    (h : match_route ts = some r) : Keeps ts r.next := by
  rw [match_route] at h
  rcases hrl : route_loop ts [] [] 0 with _ | ⟨node, str, comment, count⟩
  · rw [hrl] at h
    exact absurd h (by simp)
  · rw [hrl] at h
    dsimp only at h
    by_cases hc : count = 0
    · rw [if_pos hc] at h
      exact absurd h (by simp)
    · rw [if_neg hc] at h
      rcases hsk : skipcomment node comment with ⟨node1, comment1⟩
      rw [hsk] at h
      dsimp only at h
      rcases node1 with _ | ⟨t, rest⟩
      · exact absurd h (by simp)
      · dsimp only at h
        by_cases hco : t.type = node_type.COLON
        · rw [if_pos hco] at h
          simp only [Option.some.injEq] at h
          rw [← h]
          have hk1 := route_loop_keeps_all hrl
          have hk2 : Keeps node (t :: rest) := by
            have := skipcomment_keeps node comment
            rw [hsk] at this
            exact this
          have hne : t.type ≠ node_type.EOT := by rw [hco]; intro hc2; cases hc2
          exact ((hk1.trans hk2).trans (keeps_cons hne))
        · rw [if_neg hco] at h
          exact absurd h (by simp)

/-- A route that starts with anything other than an AT token matches no
domains and fails (count equal to zero). -/
theorem match_route_no_at {ts : List token}
    (h : ∀ t rest, ts = t :: rest → t.type ≠ node_type.AT) : match_route ts = none := by
  rw [match_route]
  rcases ts with _ | ⟨t, rest⟩
  · rw [route_loop]
    rfl
  · rw [route_loop.eq_def]
    dsimp only
    rw [if_neg (h t rest rfl)]
    rfl

/-- The word accumulation loop of match_local_part from address.cc;
unlike match_domain the comments accumulate directly in the comment field
of the result. -/
def local_part_loop (r : result) : result :=
  match h0 : skipcomment r.next r.comment with
  | (node, comment1) =>
    match node with
    | [] => { r with next := node, comment := comment1 }
    | t :: rest =>
      if t.type = node_type.PERIOD then
        match h1 : match_word rest with
        | some r1 =>
          local_part_loop ⟨r1.next, r.str ++ '.' :: r1.str, comment1 ++ r1.comment,
            r.addr ++ '.' :: r1.addr⟩
        | none => { r with next := node, comment := comment1 }
      else { r with next := node, comment := comment1 }
termination_by r.next.length
decreasing_by
  have ha := skipcomment_length r.next r.comment
  rw [h0] at ha
  simp at ha
  have hb := match_word_length h1
  omega

theorem local_part_loop_keeps :
    ∀ (n : Nat) (r : result), r.next.length ≤ n →
      Keeps r.next (local_part_loop r).next := by
  intro n
  induction n with
  | zero =>
    intro r hn
    rw [local_part_loop.eq_def]
    split
    next node comment1 h0 =>
      have hskl := skipcomment_length r.next r.comment
      rw [h0] at hskl
      dsimp only at hskl
      have hsks : Keeps r.next node := by
        have := skipcomment_keeps r.next r.comment
        rw [h0] at this
        exact this
      rcases node with _ | ⟨t, rest⟩
      · dsimp only
        exact hsks
      · exfalso
        simp only [List.length_cons] at hskl
        omega
  | succ n ih =>
    intro r hn
    rw [local_part_loop.eq_def]
    split
    next node comment1 h0 =>
      have hskl := skipcomment_length r.next r.comment
      rw [h0] at hskl
      dsimp only at hskl
      have hsks : Keeps r.next node := by
        have := skipcomment_keeps r.next r.comment
        rw [h0] at this
        exact this
      rcases node with _ | ⟨t, rest⟩
      · dsimp only
        exact hsks
      · dsimp only
        by_cases htp : t.type = node_type.PERIOD
        · rw [if_pos htp]
          split
          next r1 h1 =>
            have hlen := match_word_length h1
            have hrec := ih ⟨r1.next, r.str ++ '.' :: r1.str, comment1 ++ r1.comment,
              r.addr ++ '.' :: r1.addr⟩
              (by
                show r1.next.length ≤ n
                simp only [List.length_cons] at hskl
                omega)
            have hwd := match_word_keeps h1
            have hne : t.type ≠ node_type.EOT := by rw [htp]; intro hc; cases hc
            exact (hsks.trans ((keeps_cons hne).trans hwd)).trans hrec
          next h1 =>
            exact hsks
        · rw [if_neg htp]
          exact hsks

theorem local_part_loop_keeps_all (r : result) :
    Keeps r.next (local_part_loop r).next :=
  local_part_loop_keeps r.next.length r (Nat.le_refl _)

/-- match_local_part from address.cc: a word followed by the period-word
accumulation loop. -/
def match_local_part (ts : List token) : Option result :=
  match match_word ts with
  | none => none
  | some r => some (local_part_loop r)

theorem match_local_part_keeps {ts : List token} {r : result}
    (h : match_local_part ts = some r) : Keeps ts r.next := by
  rw [match_local_part] at h
  rcases hw : match_word ts with _ | r0
  · rw [hw] at h; exact absurd h (by simp)
  · rw [hw] at h
    simp only [Option.some.injEq] at h
    rw [← h]
    exact (match_word_keeps hw).trans (local_part_loop_keeps_all r0)

theorem match_local_part_length {ts : List token} {r : result}
    (h : match_local_part ts = some r) : r.next.length < ts.length := by
  rw [match_local_part] at h
  rcases hw : match_word ts with _ | r0
  · rw [hw] at h; exact absurd h (by simp)
  · rw [hw] at h
    simp only [Option.some.injEq] at h
    rw [← h]
    have h1 := match_word_length hw
    have h2 := (local_part_loop_keeps_all r0).1.length_le
    omega

/-- The *( AT domain ) source-route accumulation loop of match_addr_spec
from address.cc.  domain is the pending (most recently matched) domain
text; when a further domain is matched, the previous pending domain is
first appended as an AT-domain segment to both the display and canonical
accumulators (only when it is nonempty, which distinguishes the first
iteration), and the new domain becomes pending. -/
def addr_spec_loop (r : result) (domain : List Char) : result × List Char :=
  match h0 : skipcomment r.next r.comment with
  | (node, comment1) =>
    match node with
    | [] => ({ r with next := node, comment := comment1 }, domain)
    | t :: rest =>
      if t.type = node_type.AT then
        match h1 : match_domain rest with
        | some r2 =>
          if domain.isEmpty then
            addr_spec_loop ⟨r2.next, r.str, comment1 ++ r2.comment, r.addr⟩ r2.addr
          else
            addr_spec_loop ⟨r2.next, r.str ++ '@' :: domain, comment1 ++ r2.comment,
              r.addr ++ '@' :: domain⟩ r2.addr
        | none => ({ r with next := node, comment := comment1 }, domain)
      else ({ r with next := node, comment := comment1 }, domain)
termination_by r.next.length
decreasing_by
  all_goals
    have ha := skipcomment_length r.next r.comment
  all_goals
    rw [h0] at ha
  all_goals
    simp at ha
  all_goals
    have hb := match_domain_length h1
  all_goals
    omega

theorem addr_spec_loop_keeps :
    ∀ (n : Nat) (r : result) (domain : List Char), r.next.length ≤ n →
      Keeps r.next (addr_spec_loop r domain).1.next := by
  intro n
  induction n with
  | zero =>
    intro r domain hn
    rw [addr_spec_loop.eq_def]
    split
    next node comment1 h0 =>
      have hskl := skipcomment_length r.next r.comment
      rw [h0] at hskl
      dsimp only at hskl
      have hsks : Keeps r.next node := by
        have := skipcomment_keeps r.next r.comment
        rw [h0] at this
        exact this
      rcases node with _ | ⟨t, rest⟩
      · dsimp only
        exact hsks
      · exfalso
        simp only [List.length_cons] at hskl
        omega
  | succ n ih =>
    intro r domain hn
    rw [addr_spec_loop.eq_def]
    split
    next node comment1 h0 =>
      have hskl := skipcomment_length r.next r.comment
      rw [h0] at hskl
      dsimp only at hskl
      have hsks : Keeps r.next node := by
        have := skipcomment_keeps r.next r.comment
        rw [h0] at this
        exact this
      rcases node with _ | ⟨t, rest⟩
      · dsimp only
        exact hsks
      · dsimp only
        by_cases hat : t.type = node_type.AT
        · rw [if_pos hat]
          split
          next r2 h1 =>
            have hlen := match_domain_length h1
            have hdk := match_domain_keeps h1
            have hne : t.type ≠ node_type.EOT := by rw [hat]; intro hc; cases hc
            have hpre : Keeps r.next r2.next :=
              (hsks.trans ((keeps_cons hne).trans hdk))
            by_cases hdom : domain.isEmpty
            · rw [if_pos hdom]
              have hrec := ih ⟨r2.next, r.str, comment1 ++ r2.comment, r.addr⟩ r2.addr
                (by
                  show r2.next.length ≤ n
                  simp only [List.length_cons] at hskl
                  omega)
              exact hpre.trans hrec
            · rw [if_neg hdom]
              have hrec := ih ⟨r2.next, r.str ++ '@' :: domain, comment1 ++ r2.comment,
                r.addr ++ '@' :: domain⟩ r2.addr
                (by
                  show r2.next.length ≤ n
                  simp only [List.length_cons] at hskl
                  omega)
              exact hpre.trans hrec
          next h1 =>
            exact hsks
        · rw [if_neg hat]
          exact hsks

theorem addr_spec_loop_keeps_all (r : result) (domain : List Char) :
    Keeps r.next (addr_spec_loop r domain).1.next :=
  addr_spec_loop_keeps r.next.length r domain (Nat.le_refl _)

/-- match_addr_spec from address.cc: a local part, the source-route
accumulation loop, then the external canonicalize transform applied to the
final pending domain, which is appended to both the display and the
canonical text; the canonical text additionally receives a terminating
line feed.  The canonicalize collaborator is external to this unit (see
canonicalize.h) and is passed as the function canon. -/
def match_addr_spec (canon : List Char → List Char) (ts : List token) : Option result :=
  match match_local_part ts with
  | none => none
  | some r =>
    match addr_spec_loop r [] with
    | (r2, domain0) =>
      some ⟨r2.next, r2.str ++ '@' :: canon domain0, r2.comment,
        r2.addr ++ '@' :: canon domain0 ++ ['\n']⟩

theorem match_addr_spec_keeps {canon : List Char → List Char} {ts : List token} {r : result}
    (h : match_addr_spec canon ts = some r) : Keeps ts r.next := by
  rw [match_addr_spec] at h
  rcases hlp : match_local_part ts with _ | r0
  · rw [hlp] at h; exact absurd h (by simp)
  · rw [hlp] at h
    dsimp only at h
    rcases hal : addr_spec_loop r0 [] with ⟨r2, domain0⟩
    rw [hal] at h
    dsimp only at h
    simp only [Option.some.injEq] at h
    rw [← h]
    have hk1 := match_local_part_keeps hlp
    have hk2 := addr_spec_loop_keeps_all r0 []
    rw [hal] at hk2
    exact hk1.trans hk2

theorem match_addr_spec_length {canon : List Char → List Char} {ts : List token} {r : result}
    (h : match_addr_spec canon ts = some r) : r.next.length < ts.length := by
  rw [match_addr_spec] at h
  rcases hlp : match_local_part ts with _ | r0
  · rw [hlp] at h; exact absurd h (by simp)
  · rw [hlp] at h
    dsimp only at h
    rcases hal : addr_spec_loop r0 [] with ⟨r2, domain0⟩
    rw [hal] at h
    dsimp only at h
    simp only [Option.some.injEq] at h
    rw [← h]
    have hk1 := match_local_part_length hlp
    have hk2 := (addr_spec_loop_keeps_all r0 []).1.length_le
    rw [hal] at hk2
    dsimp only at hk2
    dsimp only
    omega

/-- match_route_addr from address.cc: optional comments, LABRACKET, an
optional route (consuming nothing if it fails; its display text is
discarded and only its comment is kept), a mandatory addr-spec, optional
comments, RABRACKET.  The display form wraps the addr-spec display text in
angle brackets followed by the accumulated comments; the comment field of
the returned result is empty and the canonical text is exactly the
addr-spec canonical text. -/
def match_route_addr (canon : List Char → List Char) (ts : List token) : Option result :=
  match skipcomment ts [] with
  | (node, comment) =>
    match node with
    | t :: rest =>
      if t.type = node_type.LABRACKET then
        match match_route rest with
        | some r1 =>
          match match_addr_spec canon r1.next with
          | some r2 =>
            match skipcomment r2.next (comment ++ r1.comment ++ r2.comment) with
            | (node3, comment4) =>
              match node3 with
              | u :: rest3 =>
                if u.type = node_type.RABRACKET then
                  some ⟨rest3, '<' :: r2.str ++ '>' :: comment4, [], r2.addr⟩
                else none
              | [] => none
          | none => none
        | none =>
          match match_addr_spec canon rest with
          | some r2 =>
            match skipcomment r2.next (comment ++ r2.comment) with
            | (node3, comment4) =>
              match node3 with
              | u :: rest3 =>
                if u.type = node_type.RABRACKET then
                  some ⟨rest3, '<' :: r2.str ++ '>' :: comment4, [], r2.addr⟩
                else none
              | [] => none
          | none => none
      else none
    | [] => none

theorem match_route_addr_keeps {canon : List Char → List Char} {ts : List token} {r : result}
    (h : match_route_addr canon ts = some r) :
    Keeps ts r.next ∧ r.next.length < ts.length := by
  rw [match_route_addr] at h
  rcases hsk : skipcomment ts [] with ⟨node, comment⟩
  rw [hsk] at h
  dsimp only at h
  have hk0 : Keeps ts node := by
    have := skipcomment_keeps ts []
    rw [hsk] at this
    exact this
  rcases node with _ | ⟨t, rest⟩
  · exact absurd h (by simp)
  · dsimp only at h
    by_cases hlab : t.type = node_type.LABRACKET
    · rw [if_pos hlab] at h
      have hne : t.type ≠ node_type.EOT := by rw [hlab]; intro hc; cases hc
      have hk1 : Keeps ts rest := hk0.trans (keeps_cons hne)
      have hlen1 : rest.length < ts.length := by
        have := hk0.1.length_le
        simp only [List.length_cons] at this
        omega
      rcases hrt : match_route rest with _ | r1
      · rw [hrt] at h
        dsimp only at h
        rcases has : match_addr_spec canon rest with _ | r2
        · rw [has] at h; exact absurd h (by simp)
        · rw [has] at h
          dsimp only at h
          have hk2 := match_addr_spec_keeps has
          have hlen2 := match_addr_spec_length has
          rcases hsk3 : skipcomment r2.next (comment ++ r2.comment) with ⟨node3, comment4⟩
          rw [hsk3] at h
          dsimp only at h
          have hk3 : Keeps r2.next node3 := by
            have := skipcomment_keeps r2.next (comment ++ r2.comment)
            rw [hsk3] at this
            exact this
          rcases node3 with _ | ⟨u, rest3⟩
          · exact absurd h (by simp)
          · dsimp only at h
            by_cases hrab : u.type = node_type.RABRACKET
            · rw [if_pos hrab] at h
              simp only [Option.some.injEq] at h
              rw [← h]
              have hneu : u.type ≠ node_type.EOT := by rw [hrab]; intro hc; cases hc
              constructor
              · exact ((hk1.trans hk2).trans hk3).trans (keeps_cons hneu)
              · have h3 := hk3.1.length_le
                simp only [List.length_cons] at h3
                dsimp only
                omega
            · rw [if_neg hrab] at h
              exact absurd h (by simp)
      · rw [hrt] at h
        dsimp only at h
        have hkr := match_route_keeps hrt
        rcases has : match_addr_spec canon r1.next with _ | r2
        · rw [has] at h; exact absurd h (by simp)
        · rw [has] at h
          dsimp only at h
          have hk2 := match_addr_spec_keeps has
          have hlen2 := match_addr_spec_length has
          rcases hsk3 : skipcomment r2.next (comment ++ r1.comment ++ r2.comment)
            with ⟨node3, comment4⟩
          rw [hsk3] at h
          dsimp only at h
          have hk3 : Keeps r2.next node3 := by
            have := skipcomment_keeps r2.next (comment ++ r1.comment ++ r2.comment)
            rw [hsk3] at this
            exact this
          rcases node3 with _ | ⟨u, rest3⟩
          · exact absurd h (by simp)
          · dsimp only at h
            by_cases hrab : u.type = node_type.RABRACKET
            · rw [if_pos hrab] at h
              simp only [Option.some.injEq] at h
              rw [← h]
              have hneu : u.type ≠ node_type.EOT := by rw [hrab]; intro hc; cases hc
              constructor
              · exact (((hk1.trans hkr).trans hk2).trans hk3).trans (keeps_cons hneu)
              · have h3 := hk3.1.length_le
                have h4 := hkr.1.length_le
                simp only [List.length_cons] at h3
                dsimp only
                omega
            · rw [if_neg hrab] at h
              exact absurd h (by simp)
    · rw [if_neg hlab] at h
      exact absurd h (by simp)

/-- The word repetition loop of match_phrase from address.cc: further words
are joined to the display text with single spaces; comments concatenate. -/
def phrase_loop (r1 : result) : result :=
  match h1 : match_word r1.next with
  | some r2 =>
    phrase_loop ⟨r2.next, r1.str ++ ' ' :: r2.str, r1.comment ++ r2.comment, r1.addr⟩
  | none => r1
termination_by r1.next.length
decreasing_by
  have := match_word_length h1
  omega

theorem phrase_loop_keeps :
    ∀ (n : Nat) (r1 : result), r1.next.length ≤ n →
      Keeps r1.next (phrase_loop r1).next := by
  intro n
  induction n with
  | zero =>
    intro r1 hn
    rw [phrase_loop.eq_def]
    split
    next r2 h1 =>
      exfalso
      have := match_word_length h1
      omega
    next h1 =>
      exact Keeps.refl _
  | succ n ih =>
    intro r1 hn
    rw [phrase_loop.eq_def]
    split
    next r2 h1 =>
      have hlen := match_word_length h1
      have hrec := ih ⟨r2.next, r1.str ++ ' ' :: r2.str, r1.comment ++ r2.comment, r1.addr⟩
        (by show r2.next.length ≤ n; omega)
      exact (match_word_keeps h1).trans hrec
    next h1 =>
      exact Keeps.refl _

theorem phrase_loop_keeps_all (r1 : result) : Keeps r1.next (phrase_loop r1).next :=
  phrase_loop_keeps r1.next.length r1 (Nat.le_refl _)

/-- match_phrase from address.cc: one word followed by the word repetition
loop. -/
def match_phrase (ts : List token) : Option result :=
  match match_word ts with
  | none => none
  | some r1 => some (phrase_loop r1)

theorem match_phrase_keeps {ts : List token} {r : result}
    (h : match_phrase ts = some r) : Keeps ts r.next ∧ r.next.length < ts.length := by
  rw [match_phrase] at h
  rcases hw : match_word ts with _ | r0
  · rw [hw] at h; exact absurd h (by simp)
  · rw [hw] at h
    simp only [Option.some.injEq] at h
    rw [← h]
    refine ⟨(match_word_keeps hw).trans (phrase_loop_keeps_all r0), ?_⟩
    have h1 := match_word_length hw
    have h2 := (phrase_loop_keeps_all r0).1.length_le
    omega

/-- match_route_spec from address.cc: an optional phrase followed by a
mandatory route-addr; with a phrase present the display text becomes
phrase text, phrase comments, a space and the route-addr display text
followed by its comment. -/
def match_route_spec (canon : List Char → List Char) (ts : List token) : Option result :=
  match match_phrase ts with
  | some r1 =>
    match match_route_addr canon r1.next with
    | none => none
    | some r2 =>
      some { r2 with str := r1.str ++ r1.comment ++ ' ' :: r2.str ++ r2.comment }
  | none =>
    match match_route_addr canon ts with
    | none => none
    | some r2 => some r2

theorem match_route_spec_keeps {canon : List Char → List Char} {ts : List token} {r : result}
    (h : match_route_spec canon ts = some r) :
    Keeps ts r.next ∧ r.next.length < ts.length := by
  rw [match_route_spec] at h
  rcases hp : match_phrase ts with _ | r1
  · rw [hp] at h
    dsimp only at h
    rcases hra : match_route_addr canon ts with _ | r2
    · rw [hra] at h; exact absurd h (by simp)
    · rw [hra] at h
      simp only [Option.some.injEq] at h
      rw [← h]
      exact match_route_addr_keeps hra
  · rw [hp] at h
    dsimp only at h
    rcases hra : match_route_addr canon r1.next with _ | r2
    · rw [hra] at h; exact absurd h (by simp)
    · rw [hra] at h
      simp only [Option.some.injEq] at h
      rw [← h]
      have h1 := match_phrase_keeps hp
      have h2 := match_route_addr_keeps hra
      exact ⟨h1.1.trans h2.1, by have := h2.2; have := h1.2; dsimp only; omega⟩

/-- match_mailbox from address.cc: route-spec, or else addr-spec; the
first alternative that succeeds wins. -/
def match_mailbox (canon : List Char → List Char) (ts : List token) : Option result :=
  match match_route_spec canon ts with
  | some r => some r
  | none =>
    match match_addr_spec canon ts with
    | some r => some r
    | none => none

theorem match_mailbox_keeps {canon : List Char → List Char} {ts : List token} {r : result}
    (h : match_mailbox canon ts = some r) :
    Keeps ts r.next ∧ r.next.length < ts.length := by
  rw [match_mailbox] at h
  rcases hrs : match_route_spec canon ts with _ | r1
  · rw [hrs] at h
    dsimp only at h
    rcases has : match_addr_spec canon ts with _ | r2
    · rw [has] at h; exact absurd h (by simp)
    · rw [has] at h
      simp only [Option.some.injEq] at h
      rw [← h]
      exact ⟨match_addr_spec_keeps has, match_addr_spec_length has⟩
  · rw [hrs] at h
    dsimp only at h
    simp only [Option.some.injEq] at h
    rw [← h]
    exact match_route_spec_keeps hrs

/-- The inner comma-and-comment skipping loop shared by match_mailboxes and
match_addresses from address.cc: repeatedly skip comments (appending their
text to the display accumulator) and consume COMMA tokens. -/
def comma_loop (node : List token) (str : List Char) : List token × List Char :=
  match h0 : skipcomment node str with
  | (node1, str1) =>
    match node1 with
    | t :: rest => if t.type = node_type.COMMA then comma_loop rest str1 else (t :: rest, str1)
    | [] => ([], str1)
termination_by node.length
decreasing_by
  have ha := skipcomment_length node str
  rw [h0] at ha
  simp at ha
  omega

theorem comma_loop_keeps :
    ∀ (n : Nat) (node : List token) (str : List Char), node.length ≤ n →
      Keeps node (comma_loop node str).1 := by
  intro n
  induction n with
  | zero =>
    intro node str hn
    rw [comma_loop.eq_def]
    split
    next node1 str1 h0 =>
      have hskl := skipcomment_length node str
      rw [h0] at hskl
      dsimp only at hskl
      have hsks : Keeps node node1 := by
        have := skipcomment_keeps node str
        rw [h0] at this
        exact this
      rcases node1 with _ | ⟨t, rest⟩
      · dsimp only
        exact hsks
      · exfalso
        simp only [List.length_cons] at hskl
        omega
  | succ n ih =>
    intro node str hn
    rw [comma_loop.eq_def]
    split
    next node1 str1 h0 =>
      have hskl := skipcomment_length node str
      rw [h0] at hskl
      dsimp only at hskl
      have hsks : Keeps node node1 := by
        have := skipcomment_keeps node str
        rw [h0] at this
        exact this
      rcases node1 with _ | ⟨t, rest⟩
      · dsimp only
        exact hsks
      · dsimp only
        by_cases hcm : t.type = node_type.COMMA
        · rw [if_pos hcm]
          have hne : t.type ≠ node_type.EOT := by rw [hcm]; intro hc; cases hc
          have hrec := ih rest str1
            (by simp only [List.length_cons] at hskl; omega)
          exact (hsks.trans (keeps_cons hne)).trans hrec
        · rw [if_neg hcm]
          exact hsks

theorem comma_loop_keeps_all (node : List token) (str : List Char) :
    Keeps node (comma_loop node str).1 :=
  comma_loop_keeps node.length node str (Nat.le_refl _)

/-- The mailbox repetition loop of match_mailboxes from address.cc: skip
commas and comments, stop at the end marker, match a further mailbox and
fold its display and canonical text into the accumulator.  The loop
returns the updated accumulator result together with the position reached
by the comma-and-comment skipping (which the caller stores into the
result). -/
def mailboxes_loop (canon : List Char → List Char) (r1 : result) : result × List token :=
  match h0 : comma_loop r1.next r1.str with
  | (node, str1) =>
    match node with
    | [] => ({ r1 with str := str1 }, [])
    | t :: rest =>
      if t.type = node_type.EOT then ({ r1 with str := str1 }, t :: rest)
      else
        match h1 : match_mailbox canon (t :: rest) with
        | some r2 =>
          mailboxes_loop canon ⟨r2.next, str1 ++ ',' :: ' ' :: r2.str ++ r2.comment,
            r1.comment, r1.addr ++ r2.addr⟩
        | none => ({ r1 with str := str1 }, t :: rest)
termination_by r1.next.length
decreasing_by
  have ha := (comma_loop_keeps_all r1.next r1.str).1.length_le
  rw [h0] at ha
  dsimp only at ha
  have hb := (match_mailbox_keeps h1).2
  simp only [List.length_cons] at *
  omega

theorem mailboxes_loop_keeps :
    ∀ (n : Nat) (canon : List Char → List Char) (r1 : result), r1.next.length ≤ n →
      Keeps r1.next (mailboxes_loop canon r1).2 ∧
      (mailboxes_loop canon r1).2.length ≤ r1.next.length := by
  intro n
  induction n with
  | zero =>
    intro canon r1 hn
    rw [mailboxes_loop.eq_def]
    split
    next node str1 h0 =>
      have hcl : Keeps r1.next node := by
        have := comma_loop_keeps_all r1.next r1.str
        rw [h0] at this
        exact this
      rcases node with _ | ⟨t, rest⟩
      · dsimp only
        exact ⟨hcl, by simp⟩
      · exfalso
        have := hcl.1.length_le
        simp only [List.length_cons] at this
        omega
  | succ n ih =>
    intro canon r1 hn
    rw [mailboxes_loop.eq_def]
    split
    next node str1 h0 =>
      have hcl : Keeps r1.next node := by
        have := comma_loop_keeps_all r1.next r1.str
        rw [h0] at this
        exact this
      have hcll := hcl.1.length_le
      rcases node with _ | ⟨t, rest⟩
      · dsimp only
        exact ⟨hcl, by simp⟩
      · dsimp only
        simp only [List.length_cons] at hcll
        by_cases het : t.type = node_type.EOT
        · rw [if_pos het]
          refine ⟨hcl, ?_⟩
          dsimp only
          simp only [List.length_cons]
          omega
        · rw [if_neg het]
          rcases hm : match_mailbox canon (t :: rest) with _ | r2
          · refine ⟨hcl, ?_⟩
            try dsimp only
            simp only [List.length_cons]
            omega
          · try dsimp only
            have hmk := match_mailbox_keeps hm
            have hrec := ih canon ⟨r2.next, str1 ++ ',' :: ' ' :: r2.str ++ r2.comment,
              r1.comment, r1.addr ++ r2.addr⟩
              (by
                show r2.next.length ≤ n
                have := hmk.2
                simp only [List.length_cons] at this
                omega)
            constructor
            · exact (hcl.trans hmk.1).trans hrec.1
            · have h1 := hrec.2
              have h2 := hmk.2
              simp only [List.length_cons] at h2
              dsimp only at h1
              omega

theorem mailboxes_loop_keeps_all (canon : List Char → List Char) (r1 : result) :
    Keeps r1.next (mailboxes_loop canon r1).2 :=
  (mailboxes_loop_keeps r1.next.length canon r1 (Nat.le_refl _)).1

/-- match_mailboxes from address.cc: a mailbox whose comment is folded into
the display text, the mailbox repetition loop, then a final comment skip;
the returned position is the position reached by the skipping. -/
def match_mailboxes (canon : List Char → List Char) (ts : List token) : Option result :=
  match match_mailbox canon ts with
  | none => none
  | some r0 =>
    match mailboxes_loop canon { r0 with str := r0.str ++ r0.comment, comment := [] } with
    | (r1, node) =>
      match skipcomment node r1.str with
      | (node1, str1) => some { r1 with next := node1, str := str1 }

theorem match_mailboxes_keeps {canon : List Char → List Char} {ts : List token} {r : result}
    (h : match_mailboxes canon ts = some r) :
    Keeps ts r.next ∧ r.next.length < ts.length := by
  rw [match_mailboxes] at h
  rcases hm : match_mailbox canon ts with _ | r0
  · rw [hm] at h; exact absurd h (by simp)
  · rw [hm] at h
    dsimp only at h
    have hmk := match_mailbox_keeps hm
    rcases hml : mailboxes_loop canon { r0 with str := r0.str ++ r0.comment, comment := [] }
      with ⟨r1, node⟩
    rw [hml] at h
    dsimp only at h
    have hlk : Keeps r0.next node := by
      have := mailboxes_loop_keeps_all canon { r0 with str := r0.str ++ r0.comment, comment := [] }
      rw [hml] at this
      exact this
    rcases hsk : skipcomment node r1.str with ⟨node1, str1⟩
    rw [hsk] at h
    dsimp only at h
    have hsks : Keeps node node1 := by
      have := skipcomment_keeps node r1.str
      rw [hsk] at this
      exact this
    simp only [Option.some.injEq] at h
    rw [← h]
    have hk : Keeps ts node1 := (hmk.1.trans hlk).trans hsks
    refine ⟨hk, ?_⟩
    have h1 := hmk.2
    have h2 := hlk.1.length_le
    have h3 := hsks.1.length_le
    dsimp only
    omega

/-- match_group from address.cc: a phrase, a COLON, optional mailboxes (a
failed mailboxes rule contributes default empty strings and consumes
nothing), optional comments, and a SEMICOLON; the canonical text is the
mailboxes canonical text. -/
def match_group (canon : List Char → List Char) (ts : List token) : Option result :=
  match match_phrase ts with
  | none => none
  | some r1 =>
    match r1.next with
    | t :: rest =>
      if t.type = node_type.COLON then
        match match_mailboxes canon rest with
        | some r2 =>
          match skipcomment r2.next [] with
          | (node, comment) =>
            match node with
            | u :: rest2 =>
              if u.type = node_type.SEMICOLON then
                some ⟨rest2, r1.str ++ ':' :: ' ' :: (r2.str ++ r2.comment ++ comment ++ [';']),
                  [], r2.addr⟩
              else none
            | [] => none
        | none =>
          match skipcomment rest [] with
          | (node, comment) =>
            match node with
            | u :: rest2 =>
              if u.type = node_type.SEMICOLON then
                some ⟨rest2, r1.str ++ ':' :: ' ' :: (comment ++ [';']), [], []⟩
              else none
            | [] => none
      else none
    | [] => none

theorem match_group_keeps {canon : List Char → List Char} {ts : List token} {r : result}
    (h : match_group canon ts = some r) :
    Keeps ts r.next ∧ r.next.length < ts.length := by
  rw [match_group] at h
  rcases hp : match_phrase ts with _ | r1
  · rw [hp] at h; exact absurd h (by simp)
  · rw [hp] at h
    dsimp only at h
    have hpk := match_phrase_keeps hp
    rcases hn1 : r1.next with _ | ⟨t, rest⟩
    · rw [hn1] at h; exact absurd h (by simp)
    · rw [hn1] at h
      dsimp only at h
      by_cases hco : t.type = node_type.COLON
      · rw [if_pos hco] at h
        have hne : t.type ≠ node_type.EOT := by rw [hco]; intro hc; cases hc
        have hk1 : Keeps ts rest := by
          have : Keeps ts r1.next := hpk.1
          rw [hn1] at this
          exact this.trans (keeps_cons hne)
        have hlen1 : rest.length < ts.length := by
          have := hpk.2
          rw [hn1] at this
          simp only [List.length_cons] at this
          omega
        rcases hmb : match_mailboxes canon rest with _ | r2
        · rw [hmb] at h
          dsimp only at h
          rcases hsk : skipcomment rest [] with ⟨node, comment⟩
          rw [hsk] at h
          dsimp only at h
          have hsks : Keeps rest node := by
            have := skipcomment_keeps rest []
            rw [hsk] at this
            exact this
          rcases node with _ | ⟨u, rest2⟩
          · exact absurd h (by simp)
          · dsimp only at h
            by_cases hsem : u.type = node_type.SEMICOLON
            · rw [if_pos hsem] at h
              simp only [Option.some.injEq] at h
              rw [← h]
              have hneu : u.type ≠ node_type.EOT := by rw [hsem]; intro hc; cases hc
              refine ⟨(hk1.trans hsks).trans (keeps_cons hneu), ?_⟩
              have h2 := hsks.1.length_le
              simp only [List.length_cons] at h2
              dsimp only
              omega
            · rw [if_neg hsem] at h
              exact absurd h (by simp)
        · rw [hmb] at h
          dsimp only at h
          have hmbk := match_mailboxes_keeps hmb
          rcases hsk : skipcomment r2.next [] with ⟨node, comment⟩
          rw [hsk] at h
          dsimp only at h
          have hsks : Keeps r2.next node := by
            have := skipcomment_keeps r2.next []
            rw [hsk] at this
            exact this
          rcases node with _ | ⟨u, rest2⟩
          · exact absurd h (by simp)
          · dsimp only at h
            by_cases hsem : u.type = node_type.SEMICOLON
            · rw [if_pos hsem] at h
              simp only [Option.some.injEq] at h
              rw [← h]
              have hneu : u.type ≠ node_type.EOT := by rw [hsem]; intro hc; cases hc
              refine ⟨((hk1.trans hmbk.1).trans hsks).trans (keeps_cons hneu), ?_⟩
              have h2 := hmbk.2
              have h3 := hsks.1.length_le
              simp only [List.length_cons] at h3
              dsimp only
              omega
            · rw [if_neg hsem] at h
              exact absurd h (by simp)
      · rw [if_neg hco] at h
        exact absurd h (by simp)

/-- match_address from address.cc: group, or else mailbox; first success
wins. -/
def match_address (canon : List Char → List Char) (ts : List token) : Option result :=
  match match_group canon ts with
  | some r => some r
  | none =>
    match match_mailbox canon ts with
    | some r => some r
    | none => none

theorem match_address_keeps {canon : List Char → List Char} {ts : List token} {r : result}
    (h : match_address canon ts = some r) :
    Keeps ts r.next ∧ r.next.length < ts.length := by
  rw [match_address] at h
  rcases hg : match_group canon ts with _ | r1
  · rw [hg] at h
    dsimp only at h
    rcases hm : match_mailbox canon ts with _ | r2
    · rw [hm] at h; exact absurd h (by simp)
    · rw [hm] at h
      simp only [Option.some.injEq] at h
      rw [← h]
      exact match_mailbox_keeps hm
  · rw [hg] at h
    dsimp only at h
    simp only [Option.some.injEq] at h
    rw [← h]
    exact match_group_keeps hg

/-- The address repetition loop of match_addresses from address.cc;
identical in shape to the mailbox repetition loop. -/
def addresses_loop (canon : List Char → List Char) (r1 : result) : result × List token :=
  match h0 : comma_loop r1.next r1.str with
  | (node, str1) =>
    match node with
    | [] => ({ r1 with str := str1 }, [])
    | t :: rest =>
      if t.type = node_type.EOT then ({ r1 with str := str1 }, t :: rest)
      else
        match h1 : match_address canon (t :: rest) with
        | some r2 =>
          addresses_loop canon ⟨r2.next, str1 ++ ',' :: ' ' :: r2.str ++ r2.comment,
            r1.comment, r1.addr ++ r2.addr⟩
        | none => ({ r1 with str := str1 }, t :: rest)
termination_by r1.next.length
decreasing_by
  have ha := (comma_loop_keeps_all r1.next r1.str).1.length_le
  rw [h0] at ha
  dsimp only at ha
  have hb := (match_address_keeps h1).2
  simp only [List.length_cons] at *
  omega

theorem addresses_loop_keeps :
    ∀ (n : Nat) (canon : List Char → List Char) (r1 : result), r1.next.length ≤ n →
      Keeps r1.next (addresses_loop canon r1).2 := by
  intro n
  induction n with
  | zero =>
    intro canon r1 hn
    rw [addresses_loop.eq_def]
    split
    next node str1 h0 =>
      have hcl : Keeps r1.next node := by
        have := comma_loop_keeps_all r1.next r1.str
        rw [h0] at this
        exact this
      rcases node with _ | ⟨t, rest⟩
      · dsimp only
        exact hcl
      · exfalso
        have := hcl.1.length_le
        simp only [List.length_cons] at this
        omega
  | succ n ih =>
    intro canon r1 hn
    rw [addresses_loop.eq_def]
    split
    next node str1 h0 =>
      have hcl : Keeps r1.next node := by
        have := comma_loop_keeps_all r1.next r1.str
        rw [h0] at this
        exact this
      have hcll := hcl.1.length_le
      rcases node with _ | ⟨t, rest⟩
      · dsimp only
        exact hcl
      · dsimp only
        simp only [List.length_cons] at hcll
        by_cases het : t.type = node_type.EOT
        · rw [if_pos het]
          exact hcl
        · rw [if_neg het]
          rcases hm : match_address canon (t :: rest) with _ | r2
          · exact hcl
          · try dsimp only
            have hmk := match_address_keeps hm
            have hrec := ih canon ⟨r2.next, str1 ++ ',' :: ' ' :: r2.str ++ r2.comment,
              r1.comment, r1.addr ++ r2.addr⟩
              (by
                show r2.next.length ≤ n
                have := hmk.2
                simp only [List.length_cons] at this
                omega)
            exact (hcl.trans hmk.1).trans hrec

theorem addresses_loop_keeps_all (canon : List Char → List Char) (r1 : result) :
    Keeps r1.next (addresses_loop canon r1).2 :=
  addresses_loop_keeps r1.next.length canon r1 (Nat.le_refl _)

/-- match_addresses from address.cc: an address whose comment is folded
into the display text, the address repetition loop, a final comment skip,
and then the end-of-input check: the rule fails unless the node reached
has a null successor, that is unless it is the final node of the chain
(the rule does not store that node back into the returned result, exactly
as the source does not). -/
def match_addresses (canon : List Char → List Char) (ts : List token) : Option result :=
  match match_address canon ts with
  | none => none
  | some r0 =>
    match addresses_loop canon { r0 with str := r0.str ++ r0.comment, comment := [] } with
    | (r1, node) =>
      match skipcomment node r1.str with
      | (node1, str1) =>
        match node1 with
        | [_] => some { r1 with str := str1 }
        | _ => none

/-- parse_addresses from address.cc: tokenize the line, run the top-level
addresses rule, and on success overwrite the line with the display text
and the list with the canonical text; on failure (of either stage) both
output parameters keep the values passed by the caller.  The bool result,
the final line value and the final list value are returned as a triple. -/
def parse_addresses (canon : List Char → List Char) (line list : List Char) :
    Bool × List Char × List Char :=
  match tokenize line with
  | none => (false, line, list)
  | some toks =>
    match match_addresses canon toks with
    | some r => (true, r.str, r.addr)
    | none => (false, line, list)

/-!
Kernel-computable mirrors.  The loop rules above use well-founded
recursion (mirroring the C loops, which terminate because every iteration
consumes tokens), which the kernel does not reduce definitionally.  For
evaluating the model on concrete inputs, each loop is mirrored by a
structurally recursive version with a fuel parameter, together with a
lemma that with fuel above the relevant length the mirror agrees with the
loop; the composite rules are mirrored by clones calling the fuel
versions with sufficient fuel.  These mirrors add nothing to the model:
every statement about the program is about the faithful definitions
above, and the mirrors enter only through the proved equivalences.
-/

def tokenize_fuel : Nat → List Char → Option (List token)
  | 0, _ => none
  | fuel + 1, s =>
    match tokenize1 s with
    | none => none
    | some (t, rest) =>
      if t.type = node_type.EOT then some [t]
      else
        match tokenize_fuel fuel rest with
        | none => none
        | some ts => some (t :: ts)

def domain_loop_fuel : Nat → result → List Char → result × List Char
  | 0, r, comment => (r, comment)
  | fuel + 1, r, comment =>
    match skipcomment r.next comment with
    | (node, comment1) =>
      match node with
      | [] => ({ r with next := node }, comment1)
      | t :: rest =>
        if t.type = node_type.PERIOD then
          match match_sub_domain rest with
          | some r1 =>
            domain_loop_fuel fuel ⟨r1.next, r.str ++ '.' :: r1.str, r.comment,
              r.addr ++ '.' :: r1.addr⟩ (comment1 ++ r1.comment)
          | none => ({ r with next := node }, comment1)
        else ({ r with next := node }, comment1)

def match_domain_ev (ts : List token) : Option result :=
  match match_sub_domain ts with
  | none => none
  | some r =>
    match domain_loop_fuel (r.next.length + 1) r [] with
    | (r2, comment) => some { r2 with comment := r2.comment ++ comment }

def route_loop_fuel : Nat → List token → List Char → List Char → Nat →
    Option (List token × List Char × List Char × Nat)
  | 0, _, _, _, _ => none
  | fuel + 1, node, str, comment, count =>
    match node with
    | [] => some ([], str, comment, count)
    | t :: rest =>
      if t.type = node_type.AT then
        match match_domain_ev rest with
        | some r =>
          route_loop_fuel fuel r.next (str ++ '@' :: r.str) (comment ++ r.comment) (count + 1)
        | none => none
      else some (t :: rest, str, comment, count)

def match_route_ev (ts : List token) : Option result :=
  match route_loop_fuel (ts.length + 1) ts [] [] 0 with
  | none => none
  | some (node, str, comment, count) =>
    if count = 0 then none
    else
      match skipcomment node comment with
      | (node1, comment1) =>
        match node1 with
        | t :: rest =>
          if t.type = node_type.COLON then some ⟨rest, str, comment1, []⟩ else none
        | [] => none

def local_part_loop_fuel : Nat → result → result
  | 0, r => r
  | fuel + 1, r =>
    match skipcomment r.next r.comment with
    | (node, comment1) =>
      match node with
      | [] => { r with next := node, comment := comment1 }
      | t :: rest =>
        if t.type = node_type.PERIOD then
          match match_word rest with
          | some r1 =>
            local_part_loop_fuel fuel ⟨r1.next, r.str ++ '.' :: r1.str,
              comment1 ++ r1.comment, r.addr ++ '.' :: r1.addr⟩
          | none => { r with next := node, comment := comment1 }
        else { r with next := node, comment := comment1 }

def match_local_part_ev (ts : List token) : Option result :=
  match match_word ts with
  | none => none
  | some r => some (local_part_loop_fuel (r.next.length + 1) r)

def addr_spec_loop_fuel : Nat → result → List Char → result × List Char
  | 0, r, domain => (r, domain)
  | fuel + 1, r, domain =>
    match skipcomment r.next r.comment with
    | (node, comment1) =>
      match node with
      | [] => ({ r with next := node, comment := comment1 }, domain)
      | t :: rest =>
        if t.type = node_type.AT then
          match match_domain_ev rest with
          | some r2 =>
            if domain.isEmpty then
              addr_spec_loop_fuel fuel ⟨r2.next, r.str, comment1 ++ r2.comment, r.addr⟩ r2.addr
            else
              addr_spec_loop_fuel fuel ⟨r2.next, r.str ++ '@' :: domain,
                comment1 ++ r2.comment, r.addr ++ '@' :: domain⟩ r2.addr
          | none => ({ r with next := node, comment := comment1 }, domain)
        else ({ r with next := node, comment := comment1 }, domain)

def match_addr_spec_ev (canon : List Char → List Char) (ts : List token) : Option result :=
  match match_local_part_ev ts with
  | none => none
  | some r =>
    match addr_spec_loop_fuel (r.next.length + 1) r [] with
    | (r2, domain0) =>
      some ⟨r2.next, r2.str ++ '@' :: canon domain0, r2.comment,
        r2.addr ++ '@' :: canon domain0 ++ ['\n']⟩

def match_route_addr_ev (canon : List Char → List Char) (ts : List token) : Option result :=
  match skipcomment ts [] with
  | (node, comment) =>
    match node with
    | t :: rest =>
      if t.type = node_type.LABRACKET then
        match match_route_ev rest with
        | some r1 =>
          match match_addr_spec_ev canon r1.next with
          | some r2 =>
            match skipcomment r2.next (comment ++ r1.comment ++ r2.comment) with
            | (node3, comment4) =>
              match node3 with
              | u :: rest3 =>
                if u.type = node_type.RABRACKET then
                  some ⟨rest3, '<' :: r2.str ++ '>' :: comment4, [], r2.addr⟩
                else none
              | [] => none
          | none => none
        | none =>
          match match_addr_spec_ev canon rest with
          | some r2 =>
            match skipcomment r2.next (comment ++ r2.comment) with
            | (node3, comment4) =>
              match node3 with
              | u :: rest3 =>
                if u.type = node_type.RABRACKET then
                  some ⟨rest3, '<' :: r2.str ++ '>' :: comment4, [], r2.addr⟩
                else none
              | [] => none
          | none => none
      else none
    | [] => none

def phrase_loop_fuel : Nat → result → result
  | 0, r1 => r1
  | fuel + 1, r1 =>
    match match_word r1.next with
    | some r2 =>
      phrase_loop_fuel fuel ⟨r2.next, r1.str ++ ' ' :: r2.str, r1.comment ++ r2.comment, r1.addr⟩
    | none => r1

def match_phrase_ev (ts : List token) : Option result :=
  match match_word ts with
  | none => none
  | some r1 => some (phrase_loop_fuel (r1.next.length + 1) r1)

def match_route_spec_ev (canon : List Char → List Char) (ts : List token) : Option result :=
  match match_phrase_ev ts with
  | some r1 =>
    match match_route_addr_ev canon r1.next with
    | none => none
    | some r2 =>
      some { r2 with str := r1.str ++ r1.comment ++ ' ' :: r2.str ++ r2.comment }
  | none =>
    match match_route_addr_ev canon ts with
    | none => none
    | some r2 => some r2

def match_mailbox_ev (canon : List Char → List Char) (ts : List token) : Option result :=
  match match_route_spec_ev canon ts with
  | some r => some r
  | none =>
    match match_addr_spec_ev canon ts with
    | some r => some r
    | none => none

def comma_loop_fuel : Nat → List token → List Char → List token × List Char
  | 0, node, str => (node, str)
  | fuel + 1, node, str =>
    match skipcomment node str with
    | (node1, str1) =>
      match node1 with
      | t :: rest =>
        if t.type = node_type.COMMA then comma_loop_fuel fuel rest str1 else (t :: rest, str1)
      | [] => ([], str1)

def mailboxes_loop_fuel (canon : List Char → List Char) : Nat → result → result × List token
  | 0, r1 => (r1, r1.next)
  | fuel + 1, r1 =>
    match comma_loop_fuel (r1.next.length + 1) r1.next r1.str with
    | (node, str1) =>
      match node with
      | [] => ({ r1 with str := str1 }, [])
      | t :: rest =>
        if t.type = node_type.EOT then ({ r1 with str := str1 }, t :: rest)
        else
          match match_mailbox_ev canon (t :: rest) with
          | some r2 =>
            mailboxes_loop_fuel canon fuel ⟨r2.next, str1 ++ ',' :: ' ' :: r2.str ++ r2.comment,
              r1.comment, r1.addr ++ r2.addr⟩
          | none => ({ r1 with str := str1 }, t :: rest)

def match_mailboxes_ev (canon : List Char → List Char) (ts : List token) : Option result :=
  match match_mailbox_ev canon ts with
  | none => none
  | some r0 =>
    match mailboxes_loop_fuel canon (r0.next.length + 1)
        { r0 with str := r0.str ++ r0.comment, comment := [] } with
    | (r1, node) =>
      match skipcomment node r1.str with
      | (node1, str1) => some { r1 with next := node1, str := str1 }

def match_group_ev (canon : List Char → List Char) (ts : List token) : Option result :=
  match match_phrase_ev ts with
  | none => none
  | some r1 =>
    match r1.next with
    | t :: rest =>
      if t.type = node_type.COLON then
        match match_mailboxes_ev canon rest with
        | some r2 =>
          match skipcomment r2.next [] with
          | (node, comment) =>
            match node with
            | u :: rest2 =>
              if u.type = node_type.SEMICOLON then
                some ⟨rest2, r1.str ++ ':' :: ' ' :: (r2.str ++ r2.comment ++ comment ++ [';']),
                  [], r2.addr⟩
              else none
            | [] => none
        | none =>
          match skipcomment rest [] with
          | (node, comment) =>
            match node with
            | u :: rest2 =>
              if u.type = node_type.SEMICOLON then
                some ⟨rest2, r1.str ++ ':' :: ' ' :: (comment ++ [';']), [], []⟩
              else none
            | [] => none
      else none
    | [] => none

def match_address_ev (canon : List Char → List Char) (ts : List token) : Option result :=
  match match_group_ev canon ts with
  | some r => some r
  | none =>
    match match_mailbox_ev canon ts with
    | some r => some r
    | none => none

def addresses_loop_fuel (canon : List Char → List Char) : Nat → result → result × List token
  | 0, r1 => (r1, r1.next)
  | fuel + 1, r1 =>
    match comma_loop_fuel (r1.next.length + 1) r1.next r1.str with
    | (node, str1) =>
      match node with
      | [] => ({ r1 with str := str1 }, [])
      | t :: rest =>
        if t.type = node_type.EOT then ({ r1 with str := str1 }, t :: rest)
        else
          match match_address_ev canon (t :: rest) with
          | some r2 =>
            addresses_loop_fuel canon fuel ⟨r2.next, str1 ++ ',' :: ' ' :: r2.str ++ r2.comment,
              r1.comment, r1.addr ++ r2.addr⟩
          | none => ({ r1 with str := str1 }, t :: rest)

def match_addresses_ev (canon : List Char → List Char) (ts : List token) : Option result :=
  match match_address_ev canon ts with
  | none => none
  | some r0 =>
    match addresses_loop_fuel canon (r0.next.length + 1)
        { r0 with str := r0.str ++ r0.comment, comment := [] } with
    | (r1, node) =>
      match skipcomment node r1.str with
      | (node1, str1) =>
        match node1 with
        | [_] => some { r1 with str := str1 }
        | _ => none

def parse_addresses_ev (canon : List Char → List Char) (line list : List Char) :
    Bool × List Char × List Char :=
  match tokenize_fuel (line.length + 1) line with
  | none => (false, line, list)
  | some toks =>
    match match_addresses_ev canon toks with
    | some r => (true, r.str, r.addr)
    | none => (false, line, list)

theorem tokenize_unfold (s : List Char) : tokenize s =
    match tokenize1 s with
    | none => none
    | some (t, rest) =>
      if t.type = node_type.EOT then some [t]
      else
        match tokenize rest with
        | none => none
        | some ts => some (t :: ts) := by
  rw [tokenize.eq_def]
  split <;> simp_all

theorem tokenize_fuel_eq : ∀ (fuel : Nat) (s : List Char), s.length < fuel →
    tokenize_fuel fuel s = tokenize s := by
  intro fuel
  induction fuel with
  | zero => intro s h; exact absurd h (Nat.not_lt_zero _)
  | succ n ih =>
    intro s h
    rw [tokenize_fuel, tokenize_unfold]
    rcases ht : tokenize1 s with _ | ⟨t, rest⟩
    · rfl
    · dsimp only
      by_cases het : t.type = node_type.EOT
    
      · rw [if_pos het, if_pos het]
      · rw [if_neg het, if_neg het]
        have hp := tokenize1_progress ht het
        rw [ih rest (by omega)]

theorem domain_loop_unfold (r : result) (comment : List Char) : domain_loop r comment =
    match skipcomment r.next comment with
    | (node, comment1) =>
      match node with
      | [] => ({ r with next := node }, comment1)
      | t :: rest =>
        if t.type = node_type.PERIOD then
          match match_sub_domain rest with
          | some r1 =>
            domain_loop ⟨r1.next, r.str ++ '.' :: r1.str, r.comment, r.addr ++ '.' :: r1.addr⟩
              (comment1 ++ r1.comment)
          | none => ({ r with next := node }, comment1)
        else ({ r with next := node }, comment1) := by
  rw [domain_loop.eq_def]
  split
  next node comment1 h0 =>
    conv_rhs => rw [h0]
    dsimp only
    rcases node with _ | ⟨t, rest⟩
    · rfl
    · dsimp only
      by_cases htp : t.type = node_type.PERIOD
      · rw [if_pos htp, if_pos htp]
        split
        next r1 h1 => rw [h1]
        next h1 => rw [h1]
      · rw [if_neg htp, if_neg htp]

theorem domain_loop_fuel_eq : ∀ (fuel : Nat) (r : result) (comment : List Char),
    r.next.length < fuel → domain_loop_fuel fuel r comment = domain_loop r comment := by
  intro fuel
  induction fuel with
  | zero => intro r comment h; exact absurd h (Nat.not_lt_zero _)
  | succ n ih =>
    intro r comment h
    rw [domain_loop_fuel, domain_loop_unfold]
    rcases hsk : skipcomment r.next comment with ⟨node, comment1⟩
    dsimp only
    have ha := skipcomment_length r.next comment
    rw [hsk] at ha
    dsimp only at ha
    rcases node with _ | ⟨t, rest⟩
    · rfl
    · dsimp only
      simp only [List.length_cons] at ha
      by_cases htp : t.type = node_type.PERIOD
      · rw [if_pos htp, if_pos htp]
        rcases hsd : match_sub_domain rest with _ | r1
        · rfl
        · dsimp only
          have hb := match_sub_domain_length hsd
          exact ih _ _ (by dsimp only; omega)
      · rw [if_neg htp, if_neg htp]

theorem match_domain_ev_eq (ts : List token) : match_domain_ev ts = match_domain ts := by
  rw [match_domain_ev, match_domain]
  rcases h : match_sub_domain ts with _ | r
  · rfl
  · dsimp only
    rw [domain_loop_fuel_eq _ _ _ (Nat.lt_succ_self _)]

theorem route_loop_unfold (node : List token) (str comment : List Char) (count : Nat) :
    route_loop node str comment count =
    match node with
    | [] => some ([], str, comment, count)
    | t :: rest =>
      if t.type = node_type.AT then
        match match_domain rest with
        | some r =>
          route_loop r.next (str ++ '@' :: r.str) (comment ++ r.comment) (count + 1)
        | none => none
      else some (t :: rest, str, comment, count) := by
  rw [route_loop.eq_def]
  rcases node with _ | ⟨t, rest⟩
  · rfl
  · dsimp only
    by_cases hat : t.type = node_type.AT
    · rw [if_pos hat, if_pos hat]
      split
      next r h1 => rw [h1]
      next h1 => rw [h1]
    · rw [if_neg hat, if_neg hat]

theorem route_loop_fuel_eq : ∀ (fuel : Nat) (node : List token) (str comment : List Char)
    (count : Nat), node.length < fuel →
    route_loop_fuel fuel node str comment count = route_loop node str comment count := by
  intro fuel
  induction fuel with
  | zero => intro node str comment count h; exact absurd h (Nat.not_lt_zero _)
  | succ n ih =>
    intro node str comment count h
    rw [route_loop_unfold]
    rcases node with _ | ⟨t, rest⟩
    · rfl
    · rw [route_loop_fuel]
      dsimp only
      by_cases hat : t.type = node_type.AT
      · rw [if_pos hat, if_pos hat]
        rw [match_domain_ev_eq]
        rcases hd : match_domain rest with _ | r
        · rfl
        · dsimp only
          have hb := match_domain_length hd
          simp only [List.length_cons] at h
          exact ih _ _ _ _ (by omega)
      · rw [if_neg hat, if_neg hat]

theorem match_route_ev_eq (ts : List token) : match_route_ev ts = match_route ts := by
  rw [match_route_ev, match_route]
  rw [route_loop_fuel_eq _ _ _ _ _ (Nat.lt_succ_self _)]

theorem local_part_loop_unfold (r : result) : local_part_loop r =
    match skipcomment r.next r.comment with
    | (node, comment1) =>
      match node with
      | [] => { r with next := node, comment := comment1 }
      | t :: rest =>
        if t.type = node_type.PERIOD then
          match match_word rest with
          | some r1 =>
            local_part_loop ⟨r1.next, r.str ++ '.' :: r1.str, comment1 ++ r1.comment,
              r.addr ++ '.' :: r1.addr⟩
          | none => { r with next := node, comment := comment1 }
        else { r with next := node, comment := comment1 } := by
  rw [local_part_loop.eq_def]
  split
  next node comment1 h0 =>
    conv_rhs => rw [h0]
    dsimp only
    rcases node with _ | ⟨t, rest⟩
    · rfl
    · dsimp only
      by_cases htp : t.type = node_type.PERIOD
      · rw [if_pos htp, if_pos htp]
        split
        next r1 h1 => rw [h1]
        next h1 => rw [h1]
      · rw [if_neg htp, if_neg htp]

theorem local_part_loop_fuel_eq : ∀ (fuel : Nat) (r : result), r.next.length < fuel →
    local_part_loop_fuel fuel r = local_part_loop r := by
  intro fuel
  induction fuel with
  | zero => intro r h; exact absurd h (Nat.not_lt_zero _)
  | succ n ih =>
    intro r h
    rw [local_part_loop_fuel, local_part_loop_unfold]
    rcases hsk : skipcomment r.next r.comment with ⟨node, comment1⟩
    dsimp only
    have ha := skipcomment_length r.next r.comment
    rw [hsk] at ha
    dsimp only at ha
    rcases node with _ | ⟨t, rest⟩
    · rfl
    · dsimp only
      simp only [List.length_cons] at ha
      by_cases htp : t.type = node_type.PERIOD
      · rw [if_pos htp, if_pos htp]
        rcases hw : match_word rest with _ | r1
        · rfl
        · dsimp only
          have hb := match_word_length hw
          exact ih _ (by dsimp only; omega)
      · rw [if_neg htp, if_neg htp]

theorem match_local_part_ev_eq (ts : List token) :
    match_local_part_ev ts = match_local_part ts := by
  rw [match_local_part_ev, match_local_part]
  rcases h : match_word ts with _ | r
  · rfl
  · dsimp only
    rw [local_part_loop_fuel_eq _ _ (Nat.lt_succ_self _)]

theorem addr_spec_loop_unfold (r : result) (domain : List Char) : addr_spec_loop r domain =
    match skipcomment r.next r.comment with
    | (node, comment1) =>
      match node with
      | [] => ({ r with next := node, comment := comment1 }, domain)
      | t :: rest =>
        if t.type = node_type.AT then
          match match_domain rest with
          | some r2 =>
            if domain.isEmpty then
              addr_spec_loop ⟨r2.next, r.str, comment1 ++ r2.comment, r.addr⟩ r2.addr
            else
              addr_spec_loop ⟨r2.next, r.str ++ '@' :: domain, comment1 ++ r2.comment,
                r.addr ++ '@' :: domain⟩ r2.addr
          | none => ({ r with next := node, comment := comment1 }, domain)
        else ({ r with next := node, comment := comment1 }, domain) := by
  rw [addr_spec_loop.eq_def]
  split
  next node comment1 h0 =>
    conv_rhs => rw [h0]
    dsimp only
    rcases node with _ | ⟨t, rest⟩
    · rfl
    · dsimp only
      by_cases hat : t.type = node_type.AT
      · rw [if_pos hat, if_pos hat]
        split
        next r2 h1 => rw [h1]
        next h1 => rw [h1]
      · rw [if_neg hat, if_neg hat]

theorem addr_spec_loop_fuel_eq : ∀ (fuel : Nat) (r : result) (domain : List Char),
    r.next.length < fuel → addr_spec_loop_fuel fuel r domain = addr_spec_loop r domain := by
  intro fuel
  induction fuel with
  | zero => intro r domain h; exact absurd h (Nat.not_lt_zero _)
  | succ n ih =>
    intro r domain h
    rw [addr_spec_loop_fuel, addr_spec_loop_unfold]
    rcases hsk : skipcomment r.next r.comment with ⟨node, comment1⟩
    dsimp only
    have ha := skipcomment_length r.next r.comment
    rw [hsk] at ha
    dsimp only at ha
    rcases node with _ | ⟨t, rest⟩
    · rfl
    · dsimp only
      simp only [List.length_cons] at ha
      by_cases hat : t.type = node_type.AT
      · rw [if_pos hat, if_pos hat]
        rw [match_domain_ev_eq]
        rcases hd : match_domain rest with _ | r2
        · rfl
        · dsimp only
          have hb := match_domain_length hd
          by_cases hdom : domain.isEmpty
          · rw [if_pos hdom, if_pos hdom]
            exact ih _ _ (by dsimp only; omega)
          · rw [if_neg hdom, if_neg hdom]
            exact ih _ _ (by dsimp only; omega)
      · rw [if_neg hat, if_neg hat]

theorem match_addr_spec_ev_eq (canon : List Char → List Char) (ts : List token) :
    match_addr_spec_ev canon ts = match_addr_spec canon ts := by
  rw [match_addr_spec_ev, match_addr_spec, match_local_part_ev_eq]
  rcases h : match_local_part ts with _ | r
  · rfl
  · dsimp only
    rw [addr_spec_loop_fuel_eq _ _ _ (Nat.lt_succ_self _)]

theorem match_route_addr_ev_eq (canon : List Char → List Char) (ts : List token) :
    match_route_addr_ev canon ts = match_route_addr canon ts := by
  rw [match_route_addr_ev, match_route_addr]
  rcases hsk : skipcomment ts [] with ⟨node, comment⟩
  dsimp only
  rcases node with _ | ⟨t, rest⟩
  · rfl
  · dsimp only
    by_cases hlab : t.type = node_type.LABRACKET
    · rw [if_pos hlab, if_pos hlab]
      rw [match_route_ev_eq]
      rcases hrt : match_route rest with _ | r1
      · dsimp only
        rw [match_addr_spec_ev_eq]
      · dsimp only
        rw [match_addr_spec_ev_eq]
    · rw [if_neg hlab, if_neg hlab]

theorem phrase_loop_unfold (r1 : result) : phrase_loop r1 =
    match match_word r1.next with
    | some r2 =>
      phrase_loop ⟨r2.next, r1.str ++ ' ' :: r2.str, r1.comment ++ r2.comment, r1.addr⟩
    | none => r1 := by
  rw [phrase_loop.eq_def]
  split
  next r2 h1 => rw [h1]
  next h1 => rw [h1]

theorem phrase_loop_fuel_eq : ∀ (fuel : Nat) (r1 : result), r1.next.length < fuel →
    phrase_loop_fuel fuel r1 = phrase_loop r1 := by
  intro fuel
  induction fuel with
  | zero => intro r1 h; exact absurd h (Nat.not_lt_zero _)
  | succ n ih =>
    intro r1 h
    rw [phrase_loop_fuel, phrase_loop_unfold]
    rcases hw : match_word r1.next with _ | r2
    · rfl
    · dsimp only
      have hb := match_word_length hw
      exact ih _ (by dsimp only; omega)

theorem match_phrase_ev_eq (ts : List token) : match_phrase_ev ts = match_phrase ts := by
  rw [match_phrase_ev, match_phrase]
  rcases h : match_word ts with _ | r
  · rfl
  · dsimp only
    rw [phrase_loop_fuel_eq _ _ (Nat.lt_succ_self _)]

theorem match_route_spec_ev_eq (canon : List Char → List Char) (ts : List token) :
    match_route_spec_ev canon ts = match_route_spec canon ts := by
  rw [match_route_spec_ev, match_route_spec, match_phrase_ev_eq]
  rcases h : match_phrase ts with _ | r1
  · dsimp only
    rw [match_route_addr_ev_eq]
  · dsimp only
    rw [match_route_addr_ev_eq]

theorem match_mailbox_ev_eq (canon : List Char → List Char) (ts : List token) :
    match_mailbox_ev canon ts = match_mailbox canon ts := by
  rw [match_mailbox_ev, match_mailbox, match_route_spec_ev_eq]
  rcases h : match_route_spec canon ts with _ | r
  · dsimp only
    rw [match_addr_spec_ev_eq]
  · rfl

theorem comma_loop_unfold (node : List token) (str : List Char) : comma_loop node str =
    match skipcomment node str with
    | (node1, str1) =>
      match node1 with
      | t :: rest =>
        if t.type = node_type.COMMA then comma_loop rest str1 else (t :: rest, str1)
      | [] => ([], str1) := by
  rw [comma_loop.eq_def]
  split
  next node1 str1 h0 =>
    conv_rhs => rw [h0]
    dsimp only
    rcases node1 with _ | ⟨t, rest⟩
    · rfl
    · dsimp only

theorem comma_loop_fuel_eq : ∀ (fuel : Nat) (node : List token) (str : List Char),
    node.length < fuel → comma_loop_fuel fuel node str = comma_loop node str := by
  intro fuel
  induction fuel with
  | zero => intro node str h; exact absurd h (Nat.not_lt_zero _)
  | succ n ih =>
    intro node str h
    rw [comma_loop_fuel, comma_loop_unfold]
    rcases hsk : skipcomment node str with ⟨node1, str1⟩
    dsimp only
    have ha := skipcomment_length node str
    rw [hsk] at ha
    dsimp only at ha
    rcases node1 with _ | ⟨t, rest⟩
    · rfl
    · dsimp only
      simp only [List.length_cons] at ha
      by_cases hcm : t.type = node_type.COMMA
      · rw [if_pos hcm, if_pos hcm]
        exact ih _ _ (by omega)
      · rw [if_neg hcm, if_neg hcm]

theorem mailboxes_loop_unfold (canon : List Char → List Char) (r1 : result) :
    mailboxes_loop canon r1 =
    match comma_loop r1.next r1.str with
    | (node, str1) =>
      match node with
      | [] => ({ r1 with str := str1 }, [])
      | t :: rest =>
        if t.type = node_type.EOT then ({ r1 with str := str1 }, t :: rest)
        else
          match match_mailbox canon (t :: rest) with
          | some r2 =>
            mailboxes_loop canon ⟨r2.next, str1 ++ ',' :: ' ' :: r2.str ++ r2.comment,
              r1.comment, r1.addr ++ r2.addr⟩
          | none => ({ r1 with str := str1 }, t :: rest) := by
  rw [mailboxes_loop.eq_def]
  split
  next node str1 h0 =>
    conv_rhs => rw [h0]
    dsimp only
    rcases node with _ | ⟨t, rest⟩
    · rfl
    · dsimp only
      by_cases het : t.type = node_type.EOT
      · rw [if_pos het, if_pos het]
      · rw [if_neg het, if_neg het]
        split
        next r2 h1 => rw [h1]
        next h1 => rw [h1]

theorem mailboxes_loop_fuel_eq : ∀ (fuel : Nat) (canon : List Char → List Char) (r1 : result),
    r1.next.length < fuel → mailboxes_loop_fuel canon fuel r1 = mailboxes_loop canon r1 := by
  intro fuel
  induction fuel with
  | zero => intro canon r1 h; exact absurd h (Nat.not_lt_zero _)
  | succ n ih =>
    intro canon r1 h
    rw [mailboxes_loop_fuel, mailboxes_loop_unfold]
    rw [comma_loop_fuel_eq _ _ _ (Nat.lt_succ_self _)]
    rcases hcl : comma_loop r1.next r1.str with ⟨node, str1⟩
    dsimp only
    have ha := (comma_loop_keeps_all r1.next r1.str).1.length_le
    rw [hcl] at ha
    dsimp only at ha
    rcases node with _ | ⟨t, rest⟩
    · rfl
    · dsimp only
      simp only [List.length_cons] at ha
      by_cases het : t.type = node_type.EOT
      · rw [if_pos het, if_pos het]
      · rw [if_neg het, if_neg het]
        rw [match_mailbox_ev_eq]
        rcases hm : match_mailbox canon (t :: rest) with _ | r2
        · rfl
        · dsimp only
          have hb := (match_mailbox_keeps hm).2
          simp only [List.length_cons] at hb
          exact ih _ _ (by dsimp only; omega)

theorem match_mailboxes_ev_eq (canon : List Char → List Char) (ts : List token) :
    match_mailboxes_ev canon ts = match_mailboxes canon ts := by
  rw [match_mailboxes_ev, match_mailboxes, match_mailbox_ev_eq]
  rcases h : match_mailbox canon ts with _ | r0
  · rfl
  · dsimp only
    have hml := mailboxes_loop_fuel_eq (r0.next.length + 1) canon
      { r0 with str := r0.str ++ r0.comment, comment := [] }
      (by show r0.next.length < r0.next.length + 1; exact Nat.lt_succ_self _)
    rw [hml]

theorem match_group_ev_eq (canon : List Char → List Char) (ts : List token) :
    match_group_ev canon ts = match_group canon ts := by
  rw [match_group_ev, match_group, match_phrase_ev_eq]
  rcases h : match_phrase ts with _ | r1
  · rfl
  · dsimp only
    rcases hn : r1.next with _ | ⟨t, rest⟩
    · rfl
    · dsimp only
      by_cases hco : t.type = node_type.COLON
      · rw [if_pos hco, if_pos hco]
        rw [match_mailboxes_ev_eq]
      · rw [if_neg hco, if_neg hco]

theorem match_address_ev_eq (canon : List Char → List Char) (ts : List token) :
    match_address_ev canon ts = match_address canon ts := by
  rw [match_address_ev, match_address, match_group_ev_eq]
  rcases h : match_group canon ts with _ | r
  · dsimp only
    rw [match_mailbox_ev_eq]
  · rfl

theorem addresses_loop_unfold (canon : List Char → List Char) (r1 : result) :
    addresses_loop canon r1 =
    match comma_loop r1.next r1.str with
    | (node, str1) =>
      match node with
      | [] => ({ r1 with str := str1 }, [])
      | t :: rest =>
        if t.type = node_type.EOT then ({ r1 with str := str1 }, t :: rest)
        else
          match match_address canon (t :: rest) with
          | some r2 =>
            addresses_loop canon ⟨r2.next, str1 ++ ',' :: ' ' :: r2.str ++ r2.comment,
              r1.comment, r1.addr ++ r2.addr⟩
          | none => ({ r1 with str := str1 }, t :: rest) := by
  rw [addresses_loop.eq_def]
  split
  next node str1 h0 =>
    conv_rhs => rw [h0]
    dsimp only
    rcases node with _ | ⟨t, rest⟩
    · rfl
    · dsimp only
      by_cases het : t.type = node_type.EOT
      · rw [if_pos het, if_pos het]
      · rw [if_neg het, if_neg het]
        split
        next r2 h1 => rw [h1]
        next h1 => rw [h1]

theorem addresses_loop_fuel_eq : ∀ (fuel : Nat) (canon : List Char → List Char) (r1 : result),
    r1.next.length < fuel → addresses_loop_fuel canon fuel r1 = addresses_loop canon r1 := by
  intro fuel
  induction fuel with
  | zero => intro canon r1 h; exact absurd h (Nat.not_lt_zero _)
  | succ n ih =>
    intro canon r1 h
    rw [addresses_loop_fuel, addresses_loop_unfold]
    rw [comma_loop_fuel_eq _ _ _ (Nat.lt_succ_self _)]
    rcases hcl : comma_loop r1.next r1.str with ⟨node, str1⟩
    dsimp only
    have ha := (comma_loop_keeps_all r1.next r1.str).1.length_le
    rw [hcl] at ha
    dsimp only at ha
    rcases node with _ | ⟨t, rest⟩
    · rfl
    · dsimp only
      simp only [List.length_cons] at ha
      by_cases het : t.type = node_type.EOT
      · rw [if_pos het, if_pos het]
      · rw [if_neg het, if_neg het]
        rw [match_address_ev_eq]
        rcases hm : match_address canon (t :: rest) with _ | r2
        · rfl
        · dsimp only
          have hb := (match_address_keeps hm).2
          simp only [List.length_cons] at hb
          exact ih _ _ (by dsimp only; omega)

theorem match_addresses_ev_eq (canon : List Char → List Char) (ts : List token) :
    match_addresses_ev canon ts = match_addresses canon ts := by
  rw [match_addresses_ev, match_addresses, match_address_ev_eq]
  rcases h : match_address canon ts with _ | r0
  · rfl
  · dsimp only
    have hal := addresses_loop_fuel_eq (r0.next.length + 1) canon
      { r0 with str := r0.str ++ r0.comment, comment := [] }
      (by show r0.next.length < r0.next.length + 1; exact Nat.lt_succ_self _)
    rw [hal]

theorem parse_addresses_ev_eq (canon : List Char → List Char) (line list : List Char) :
    parse_addresses_ev canon line list = parse_addresses canon line list := by
  rw [parse_addresses_ev, parse_addresses]
  rw [tokenize_fuel_eq _ _ (Nat.lt_succ_self _)]
  rcases h : tokenize line with _ | toks
  · rfl
  · dsimp only
    rw [match_addresses_ev_eq]

theorem addresses_loop_fst_keeps :
    ∀ (n : Nat) (canon : List Char → List Char) (r1 : result), r1.next.length ≤ n →
      Keeps r1.next (addresses_loop canon r1).1.next := by
  intro n
  induction n with
  | zero =>
    intro canon r1 hn
    rw [addresses_loop_unfold]
    rcases hcl : comma_loop r1.next r1.str with ⟨node, str1⟩
    dsimp only
    have ha := (comma_loop_keeps_all r1.next r1.str).1.length_le
    rw [hcl] at ha
    dsimp only at ha
    rcases node with _ | ⟨t, rest⟩
    · exact Keeps.refl _
    · exfalso
      simp only [List.length_cons] at ha
      omega
  | succ n ih =>
    intro canon r1 hn
    rw [addresses_loop_unfold]
    rcases hcl : comma_loop r1.next r1.str with ⟨node, str1⟩
    dsimp only
    have hck : Keeps r1.next node := by
      have := comma_loop_keeps_all r1.next r1.str
      rw [hcl] at this
      exact this
    have ha := hck.1.length_le
    rcases node with _ | ⟨t, rest⟩
    · exact Keeps.refl _
    · dsimp only
      simp only [List.length_cons] at ha
      by_cases het : t.type = node_type.EOT
      · rw [if_pos het]
        exact Keeps.refl _
      · rw [if_neg het]
        rcases hm : match_address canon (t :: rest) with _ | r2
        · exact Keeps.refl _
        · dsimp only
          have hmk := match_address_keeps hm
          have hrec := ih canon ⟨r2.next, str1 ++ ',' :: ' ' :: r2.str ++ r2.comment,
            r1.comment, r1.addr ++ r2.addr⟩
            (by
              show r2.next.length ≤ n
              have := hmk.2
              simp only [List.length_cons] at this
              omega)
          exact (hck.trans hmk.1).trans hrec

theorem match_addresses_keeps {canon : List Char → List Char} {ts : List token} {r : result}
    (h : match_addresses canon ts = some r) : Keeps ts r.next := by
  rw [match_addresses] at h
  rcases hm : match_address canon ts with _ | r0
  · rw [hm] at h; exact absurd h (by simp)
  · rw [hm] at h
    dsimp only at h
    have hmk := match_address_keeps hm
    rcases hml : addresses_loop canon { r0 with str := r0.str ++ r0.comment, comment := [] }
      with ⟨r1, node⟩
    rw [hml] at h
    dsimp only at h
    have hlk : Keeps r0.next r1.next := by
      have := addresses_loop_fst_keeps r0.next.length canon
        { r0 with str := r0.str ++ r0.comment, comment := [] } (Nat.le_refl _)
      rw [hml] at this
      exact this
    rcases hsk : skipcomment node r1.str with ⟨node1, str1⟩
    rw [hsk] at h
    dsimp only at h
    rcases node1 with _ | ⟨u, rest1⟩
    · exact absurd h (by simp)
    · rcases rest1 with _ | ⟨v, rest2⟩
      · simp only [Option.some.injEq] at h
        rw [← h]
        exact hmk.1.trans hlk
      · exact absurd h (by simp)

theorem tokenize1_eot {s : List Char} {t : token} {rest : List Char}
    (h : tokenize1 s = some (t, rest)) (ht : t.type = node_type.EOT) :
    t = ⟨node_type.EOT, []⟩ := by
  rw [tokenize1] at h
  rcases hs : s.dropWhile isspace with _ | ⟨c, srest⟩
  · rw [hs] at h
    simp only [Option.some.injEq, Prod.mk.injEq] at h
    exact h.1.symm
  · rw [hs] at h
    by_cases h1 : c = '<'
    · simp [h1] at h
      rw [← h.1] at ht
      exact absurd ht (by intro hc; cases hc)
    · by_cases h2 : c = '>'
      · simp [h1, h2] at h
        rw [← h.1] at ht
        exact absurd ht (by intro hc; cases hc)
      · by_cases h3 : c = '@'
        · simp [h1, h2, h3] at h
          rw [← h.1] at ht
          exact absurd ht (by intro hc; cases hc)
        · by_cases h4 : c = ','
          · simp [h1, h2, h3, h4] at h
            rw [← h.1] at ht
            exact absurd ht (by intro hc; cases hc)
          · by_cases h5 : c = ';'
            · simp [h1, h2, h3, h4, h5] at h
              rw [← h.1] at ht
              exact absurd ht (by intro hc; cases hc)
            · by_cases h6 : c = ':'
              · simp [h1, h2, h3, h4, h5, h6] at h
                rw [← h.1] at ht
                exact absurd ht (by intro hc; cases hc)
              · by_cases h7 : c = '\\'
                · simp [h1, h2, h3, h4, h5, h6, h7] at h
                  rw [← h.1] at ht
                  exact absurd ht (by intro hc; cases hc)
                · by_cases h8 : c = '.'
                  · simp [h1, h2, h3, h4, h5, h6, h7, h8] at h
                    rw [← h.1] at ht
                    exact absurd ht (by intro hc; cases hc)
                  · by_cases h9 : c = '('
                    · simp [h9] at h
                      rw [tokenize_comment] at h
                      simp only [if_pos rfl] at h
                      rcases hcl : comment_loop [] 0 ('(' :: srest) with _ | ⟨p⟩
                      · rw [hcl] at h; simp at h
                      · rw [hcl] at h
                        simp at h
                        obtain ⟨hh1, hh2⟩ := h
                        rw [← hh1] at ht
                        exact absurd ht (by intro hc; cases hc)
                    · by_cases h10 : c = '['
                      · simp [h9, h10] at h
                        rw [tokenize_domain_literal] at h
                        simp only [if_pos rfl] at h
                        rcases hr3 : (dtext_loop (srest.dropWhile isspace)).dropWhile isspace
                          with _ | ⟨d, r4⟩
                        · simp only [hr3] at h; simp at h
                        · simp only [hr3] at h
                          by_cases hd : d = ']'
                          · simp only [hd] at h
                            simp at h
                            obtain ⟨hh1, hh2⟩ := h
                            rw [← hh1] at ht
                            exact absurd ht (by intro hc; cases hc)
                          · simp [hd] at h
                      · by_cases h11 : c = '"'
                        · simp [h9, h10, h11] at h
                          rw [tokenize_quoted_string] at h
                          simp only [if_pos rfl] at h
                          rcases hql : qstring_loop ['"'] srest with _ | ⟨p⟩
                          · rw [hql] at h; simp at h
                          · rw [hql] at h
                            simp at h
                            obtain ⟨hh1, hh2⟩ := h
                            rw [← hh1] at ht
                            exact absurd ht (by intro hc; cases hc)
                        · simp [h1, h2, h3, h4, h5, h6, h7, h8, h9, h10, h11] at h
                          rw [tokenize_atom] at h
                          by_cases ha : isatom c
                          · simp only [ha] at h
                            simp at h
                            obtain ⟨hh1, hh2⟩ := h
                            rw [← hh1] at ht
                            exact absurd ht (by intro hc; cases hc)
                          · simp [ha] at h

/-- The token sequence produced by a successful tokenization is a list of
non-end-marker tokens followed by exactly one end-marker token. -/
theorem tokenize_shape :
    ∀ (n : Nat) (s : List Char), s.length ≤ n → ∀ ts, tokenize s = some ts →
      ∃ l, ts = l ++ [(⟨node_type.EOT, []⟩ : token)] ∧
        ∀ u ∈ l, u.type ≠ node_type.EOT := by
  intro n
  induction n with
  | zero =>
    intro s hn ts h
    rw [tokenize_unfold] at h
    rcases ht : tokenize1 s with _ | ⟨t, rest⟩
    · rw [ht] at h; exact absurd h (by simp)
    · rw [ht] at h
      dsimp only at h
      by_cases het : t.type = node_type.EOT
      · rw [if_pos het] at h
        simp only [Option.some.injEq] at h
        refine ⟨[], ?_, by simp⟩
        rw [← h, tokenize1_eot ht het]
        simp
      · exfalso
        have := tokenize1_progress ht het
        omega
  | succ n ih =>
    intro s hn ts h
    rw [tokenize_unfold] at h
    rcases ht : tokenize1 s with _ | ⟨t, rest⟩
    · rw [ht] at h; exact absurd h (by simp)
    · rw [ht] at h
      dsimp only at h
      by_cases het : t.type = node_type.EOT
      · rw [if_pos het] at h
        simp only [Option.some.injEq] at h
        refine ⟨[], ?_, by simp⟩
        rw [← h, tokenize1_eot ht het]
        simp
      · rw [if_neg het] at h
        rcases htk : tokenize rest with _ | ts2
        · rw [htk] at h; exact absurd h (by simp)
        · rw [htk] at h
          simp only [Option.some.injEq] at h
          have hp := tokenize1_progress ht het
          obtain ⟨l, hl1, hl2⟩ := ih rest (by omega) ts2 htk
          refine ⟨t :: l, ?_, ?_⟩
          · rw [← h, hl1]
            simp
          · intro u hu
            rcases List.mem_cons.mp hu with hu | hu
            · rw [hu]
              exact het
            · exact hl2 u hu

theorem isqpair_cons_ne {c : Char} (h : c ≠ '\\') (l : List Char) :
    isqpair (c :: l) = false := by
  rcases l with _ | ⟨d, l'⟩
  · rfl
  · simp [isqpair, h]

theorem takeWhile_all {p : Char → Bool} {s : List Char} (h : ∀ c ∈ s, p c = true) :
    s.takeWhile p = s := by
  induction s with
  | nil => rfl
  | cons c s' ih =>
    rw [List.takeWhile_cons, h c (by simp)]
    rw [ih (fun c hc => h c (by simp [hc]))]
    simp

theorem dropWhile_all {p : Char → Bool} {s : List Char} (h : ∀ c ∈ s, p c = true) :
    s.dropWhile p = [] := by
  induction s with
  | nil => rfl
  | cons c s' ih =>
    rw [List.dropWhile_cons, h c (by simp)]
    simp only [if_true]
    exact ih (fun c hc => h c (by simp [hc]))

theorem unquote_pairs_no_escape {s : List Char} (h : ∀ c ∈ s, c ≠ '\\') :
    unquote_pairs s = s := by
  induction s with
  | nil => rfl
  | cons c s' ih =>
    rw [unquote_pairs.eq_def]
    dsimp only
    rw [isqpair_cons_ne (h c (by simp))]
    simp only [Bool.false_eq_true, if_false]
    rw [ih (fun c hc => h c (by simp [hc]))]

theorem isatom_not_symbol {c : Char} (h : isatom c = true) :
    issymbol c = false ∧ isspace c = false := by
  rw [isatom] at h
  simp only [Bool.not_eq_true', Bool.or_eq_false_iff] at h
  exact ⟨h.1.2, h.1.1⟩

theorem issymbol_false_ne {c : Char} (h : issymbol c = false) :
    c ≠ '(' ∧ c ≠ ')' ∧ c ≠ '<' ∧ c ≠ '>' ∧ c ≠ '[' ∧ c ≠ ']' ∧
    c ≠ '@' ∧ c ≠ ',' ∧ c ≠ ';' ∧ c ≠ ':' ∧ c ≠ '\\' ∧ c ≠ '"' ∧ c ≠ '.' := by
  rw [issymbol] at h
  simp only [Bool.or_eq_false_iff, decide_eq_false_iff_not] at h
  obtain ⟨⟨⟨⟨⟨⟨⟨⟨⟨⟨⟨⟨h1, h2⟩, h3⟩, h4⟩, h5⟩, h6⟩, h7⟩, h8⟩, h9⟩, h10⟩, h11⟩, h12⟩, h13⟩ := h
  exact ⟨h1, h2, h3, h4, h5, h6, h7, h8, h9, h10, h11, h12, h13⟩

theorem tokenize_nil : tokenize [] = some [⟨node_type.EOT, []⟩] := by
  rw [tokenize_unfold]
  rfl

theorem tokenize_all_atom {s : List Char} (h0 : s ≠ [])
    (ha : ∀ c ∈ s, isatom c = true) :
    tokenize s = some [⟨node_type.ATOM, s⟩, ⟨node_type.EOT, []⟩] := by
  rcases s with _ | ⟨c, s'⟩
  · exact absurd rfl h0
  · have hc := ha c (by simp)
    have hsym := isatom_not_symbol hc
    obtain ⟨n1, n2, n3, n4, n5, n6, n7, n8, n9, n10, n11, n12, n13⟩ :=
      issymbol_false_ne hsym.1
    have h1 : tokenize1 (c :: s') = some (⟨node_type.ATOM, c :: s'⟩, []) := by
      rw [tokenize1]
      rw [List.dropWhile_cons, hsym.2]
      simp only [Bool.false_eq_true, if_false]
      rw [if_neg n3, if_neg n4, if_neg n7, if_neg n8, if_neg n9, if_neg n10,
        if_neg n11, if_neg n13, if_neg n1, if_neg n5, if_neg n12]
      rw [tokenize_atom]
      rw [if_pos hc]
      rw [takeWhile_all ha, dropWhile_all ha]
    rw [tokenize_unfold, h1]
    dsimp only
    rw [if_neg (by intro hc2; cases hc2)]
    rw [tokenize_nil]

theorem qstring_loop_quote_escape {s : List Char} (h1 : '\n' ∉ s) (h2 : '\x00' ∉ s) :
    ∀ (acc rest : List Char),
      qstring_loop acc (quote_escape s ++ '"' :: rest) =
        some (acc ++ quote_escape s ++ ['"'], rest) := by
  induction s with
  | nil =>
    intro acc rest
    rw [quote_escape]
    simp only [List.nil_append]
    rw [qstring_loop.eq_def]
    dsimp only
    rw [show isqtext '"' = false from by decide]
    simp only [Bool.false_eq_true, if_false]
    rw [isqpair_cons_ne (by decide)]
    simp only [Bool.false_eq_true, if_false, if_pos rfl]
    simp
  | cons c s' ih =>
    intro acc rest
    have h1' : '\n' ∉ s' := fun hc => h1 (by simp [hc])
    have h2' : '\x00' ∉ s' := fun hc => h2 (by simp [hc])
    have hc1 : c ≠ '\n' := fun hc => h1 (by simp [hc])
    have hc2 : c ≠ '\x00' := fun hc => h2 (by simp [hc])
    rw [quote_escape]
    by_cases hcs : issymbol c
    · rw [if_pos hcs]
      rw [List.cons_append, List.cons_append]
      rw [qstring_loop.eq_def]
      dsimp only
      rw [show isqtext '\\' = false from by decide]
      simp only [Bool.false_eq_true, if_false]
      rw [show isqpair ('\\' :: c :: (quote_escape s' ++ '"' :: rest)) = true from by
        simp [isqpair, hc2]]
      simp only [if_true]
      rw [ih h1' h2']
      simp
    · rw [if_neg hcs]
      rw [List.cons_append]
      rw [qstring_loop.eq_def]
      dsimp only
      obtain ⟨m1, m2, m3, m4, m5, m6, m7, m8, m9, m10, m11, m12, m13⟩ :=
        issymbol_false_ne (by simpa using hcs)
      rw [show isqtext c = true from by simp [isqtext, hc1, hc2, m11, m12]]
      simp only [if_true]
      rw [ih h1' h2']
      simp

theorem unquote_pairs_quote_escape {s : List Char} (h2 : '\x00' ∉ s) :
    unquote_pairs (quote_escape s) = s := by
  induction s with
  | nil => rfl
  | cons c s' ih =>
    have h2' : '\x00' ∉ s' := fun hc => h2 (by simp [hc])
    have hc2 : c ≠ '\x00' := fun hc => h2 (by simp [hc])
    rw [quote_escape]
    by_cases hcs : issymbol c
    · rw [if_pos hcs]
      rw [unquote_pairs.eq_def]
      dsimp only
      rw [show isqpair ('\\' :: c :: quote_escape s') = true from by simp [isqpair, hc2]]
      simp only [if_true]
      rw [ih h2']
    · rw [if_neg hcs]
      rw [unquote_pairs.eq_def]
      dsimp only
      have hne : c ≠ '\\' := (issymbol_false_ne (by simpa using hcs)).2.2.2.2.2.2.2.2.2.2.1
      rw [isqpair_cons_ne hne]
      simp only [Bool.false_eq_true, if_false]
      rw [ih h2']

theorem tokenize_quote_sym {s : List Char} (hsym : s.any issymbol = true)
    (h1 : '\n' ∉ s) (h2 : '\x00' ∉ s) :
    tokenize (quote s) =
      some [⟨node_type.QUOTED_STRING, '"' :: (quote_escape s ++ ['"'])⟩,
        ⟨node_type.EOT, []⟩] := by
  rw [quote, if_pos hsym]
  have ht1 : tokenize1 ('"' :: (quote_escape s ++ ['"'])) =
      some (⟨node_type.QUOTED_STRING, '"' :: (quote_escape s ++ ['"'])⟩, []) := by
    rw [tokenize1]
    rw [List.dropWhile_cons, show isspace '"' = false from by decide]
    simp only [Bool.false_eq_true, if_false]
    rw [if_neg (by decide), if_neg (by decide), if_neg (by decide), if_neg (by decide),
      if_neg (by decide), if_neg (by decide), if_neg (by decide), if_neg (by decide),
      if_neg (by decide), if_neg (by decide)]
    rw [if_pos trivial]
    rw [tokenize_quoted_string]
    rw [if_pos rfl]
    rw [qstring_loop_quote_escape h1 h2 ['"'] []]
    rfl
  rw [tokenize_unfold, ht1]
  dsimp only
  rw [if_neg (by intro hc; cases hc)]
  rw [tokenize_nil]

theorem unquote_quote_sym {s : List Char} (h2 : '\x00' ∉ s) :
    unquote ('"' :: (quote_escape s ++ ['"'])) = s := by
  rw [unquote]
  rw [if_pos ?hcond]
  case hcond =>
    refine ⟨?_, ?_, ?_⟩
    · simp
    · rfl
    · rw [show ('"' :: (quote_escape s ++ ['"'])) = ('"' :: quote_escape s) ++ ['"'] from by
        simp]
      rw [List.getLast?_concat]
  · have hlen : ('"' :: (quote_escape s ++ ['"'])).length - 2 = (quote_escape s).length := by
      simp
    rw [hlen]
    simp only [List.drop_one, List.tail_cons]
    rw [List.take_left]
    exact unquote_pairs_quote_escape h2

/-- The round-trip property of the spec, as a boolean check: tokenizing
quote(s) must produce exactly one token besides the end marker, that token
an atom or a quoted string, and its unquoted content must equal s. -/
def quoteRoundtripOK (s : List Char) : Bool :=
  match tokenize (quote s) with
  | some [t, e] =>
    if (t.type = node_type.ATOM ∨ t.type = node_type.QUOTED_STRING) ∧
        e.type = node_type.EOT ∧ unquote t.str = s then true else false
  | _ => false

/-- An ATOM token with the given text. -/
def atomTok (s : List Char) : token := ⟨node_type.ATOM, s⟩

/-- The AT structural token. -/
def atTok : token := ⟨node_type.AT, []⟩

/-- The end-marker token. -/
def eotTok : token := ⟨node_type.EOT, []⟩

/-- The token sequence of an addr-spec with atom local part L and atom
domain segments ds chained by AT tokens, as produced by the tokenizer for
L@d1@...@dn. -/
def addrSpecToks (L : List Char) (ds : List (List Char)) : List token :=
  atomTok L :: (ds.map (fun d => [atTok, atomTok d])).flatten ++ [eotTok]

/-- The text L@d1@...@dn. -/
def chainText (L : List Char) (ds : List (List Char)) : List Char :=
  L ++ (ds.map (fun d => '@' :: d)).flatten

/-- The contribution of the source-route loop given pending domain p and
remaining domains ds: the text appended to both accumulators, and the
final pending domain. -/
def prependChain : List Char → List (List Char) → List Char × List Char
  | p, [] => ([], p)
  | p, d :: ds =>
    match prependChain d ds with
    | (txt, fin) => ('@' :: (p ++ txt), fin)

theorem prependChain_spec : ∀ (ds : List (List Char)) (d : List Char),
    (prependChain d ds).1 ++ '@' :: (prependChain d ds).2 =
      ((d :: ds).map (fun x => '@' :: x)).flatten := by
  intro ds
  induction ds with
  | nil => intro d; simp [prependChain]
  | cons e ds' ih =>
    intro d
    rw [prependChain]
    rcases hpc : prependChain e ds' with ⟨txt, fin⟩
    dsimp only
    have hthis := ih e
    rw [hpc] at hthis
    dsimp only at hthis
    rw [List.map_cons, List.flatten_cons, ← hthis]
    simp

theorem skipcomment_no_comment {ts : List token} (comment : List Char)
    (h : ∀ u rest', ts = u :: rest' → u.type ≠ node_type.COMMENT) :
    skipcomment ts comment = (ts, comment) := by
  rcases ts with _ | ⟨u, rest⟩
  · rfl
  · rw [skipcomment, if_neg (h u rest rfl)]

theorem match_sub_domain_atom (d : List Char) (tl : List token) :
    match_sub_domain (atomTok d :: tl) = some ⟨tl, d, [], d⟩ := by
  have hnc : ∀ u rest', atomTok d :: tl = u :: rest' → u.type ≠ node_type.COMMENT := by
    intro u rest' he
    injection he with he1 he2
    rw [← he1]
    intro hc
    cases hc
  rw [match_sub_domain, skipcomment_no_comment [] hnc]
  dsimp only [atomTok]
  rw [if_pos (Or.inl rfl)]

theorem domain_loop_stop (r : result) (comment : List Char)
    (h : ∀ u rest', r.next = u :: rest' →
      u.type ≠ node_type.PERIOD ∧ u.type ≠ node_type.COMMENT) :
    domain_loop r comment = (r, comment) := by
  rw [domain_loop_unfold]
  rw [skipcomment_no_comment comment (fun u rest' he => (h u rest' he).2)]
  dsimp only
  split
  next => rfl
  next u rest heq => rw [if_neg (h u rest heq).1]

theorem match_domain_single (d : List Char) (tl : List token)
    (htl : ∀ u rest', tl = u :: rest' →
      u.type ≠ node_type.PERIOD ∧ u.type ≠ node_type.COMMENT) :
    match_domain (atomTok d :: tl) = some ⟨tl, d, [], d⟩ := by
  rw [match_domain, match_sub_domain_atom]
  dsimp only
  rw [domain_loop_stop ⟨tl, d, [], d⟩ [] htl]
  simp

theorem local_part_loop_stop (r : result)
    (h : ∀ u rest', r.next = u :: rest' →
      u.type ≠ node_type.PERIOD ∧ u.type ≠ node_type.COMMENT) :
    local_part_loop r = r := by
  rw [local_part_loop_unfold]
  rw [skipcomment_no_comment r.comment (fun u rest' he => (h u rest' he).2)]
  dsimp only
  split
  next => rfl
  next u rest heq => rw [if_neg (h u rest heq).1]

/-- The head of the flattened AT-domain token list is never PERIOD or
COMMENT (it is an AT token or, when the list is empty, the end marker). -/
theorem joined_head_ok (ds : List (List Char)) :
    ∀ u rest', (ds.map (fun d => [atTok, atomTok d])).flatten ++ [eotTok] = u :: rest' →
      u.type ≠ node_type.PERIOD ∧ u.type ≠ node_type.COMMENT := by
  intro u rest' he
  rcases ds with _ | ⟨d, ds'⟩
  · simp only [List.map_nil, List.flatten_nil, List.nil_append, List.cons.injEq] at he
    rw [← he.1]
    exact ⟨(by intro hc; cases hc), (by intro hc; cases hc)⟩
  · simp only [List.map_cons, List.flatten_cons, List.cons_append, List.cons.injEq] at he
    rw [← he.1]
    exact ⟨(by intro hc; cases hc), (by intro hc; cases hc)⟩

theorem match_word_atom (L : List Char) (tl : List token) :
    match_word (atomTok L :: tl) = some ⟨tl, L, [], L⟩ := by
  have hnc : ∀ u rest', atomTok L :: tl = u :: rest' → u.type ≠ node_type.COMMENT := by
    intro u rest' he
    injection he with he1 he2
    rw [← he1]
    intro hc
    cases hc
  rw [match_word, skipcomment_no_comment [] hnc]
  dsimp only [atomTok]
  rw [if_pos rfl]

theorem addr_spec_loop_chain :
    ∀ (ds : List (List Char)) (p : List Char) (str0 addr0 : List Char),
      p ≠ [] → (∀ d ∈ ds, d ≠ []) →
      addr_spec_loop
          ⟨(ds.map (fun d => [atTok, atomTok d])).flatten ++ [eotTok], str0, [], addr0⟩ p =
        (⟨[eotTok], str0 ++ (prependChain p ds).1, [], addr0 ++ (prependChain p ds).1⟩,
          (prependChain p ds).2) := by
  intro ds
  induction ds with
  | nil =>
    intro p str0 addr0 hp hds
    rw [addr_spec_loop_unfold]
    dsimp only
    rw [skipcomment_no_comment [] (fun u rest' he => (joined_head_ok [] u rest' he).2)]
    dsimp only [List.map_nil, List.flatten_nil, List.nil_append]
    rw [if_neg (by intro hc; cases hc)]
    simp [prependChain]
  | cons d ds' ih =>
    intro p str0 addr0 hp hds
    rw [addr_spec_loop_unfold]
    dsimp only
    rw [skipcomment_no_comment [] (fun u rest' he => (joined_head_ok (d :: ds') u rest' he).2)]
    dsimp only [List.map_cons, List.flatten_cons, List.cons_append, List.nil_append]
    rw [if_pos (show atTok.type = node_type.AT from rfl)]
    rw [match_domain_single d _ (joined_head_ok ds')]
    dsimp only
    have hpe : ¬ p.isEmpty = true := by
      rcases p with _ | ⟨c, p'⟩
      · exact absurd rfl hp
      · simp
    rw [if_neg hpe]
    have hih := ih d (str0 ++ '@' :: p) (addr0 ++ '@' :: p) (hds d (by simp))
      (fun x hx => hds x (by simp [hx]))
    rw [hih]
    rw [prependChain]
    rcases hpc : prependChain d ds' with ⟨txt, fin⟩
    dsimp only
    simp

theorem match_addr_spec_chain (L : List Char) (ds : List (List Char))
    (h1 : ds ≠ []) (h2 : ∀ d ∈ ds, d ≠ []) :
    match_addr_spec (fun d => d) (addrSpecToks L ds) =
      some ⟨[eotTok], chainText L ds, [], chainText L ds ++ ['\n']⟩ := by
  rcases ds with _ | ⟨d, ds'⟩
  · exact absurd rfl h1
  · rw [match_addr_spec]
    have hlp : match_local_part (addrSpecToks L (d :: ds')) =
        some ⟨((d :: ds').map (fun x => [atTok, atomTok x])).flatten ++ [eotTok],
          L, [], L⟩ := by
      rw [match_local_part, addrSpecToks, List.cons_append, match_word_atom]
      dsimp only
      rw [local_part_loop_stop _ (joined_head_ok (d :: ds'))]
    rw [hlp]
    dsimp only
    have hstep : addr_spec_loop
        ⟨((d :: ds').map (fun x => [atTok, atomTok x])).flatten ++ [eotTok], L, [], L⟩ [] =
        addr_spec_loop
          ⟨(ds'.map (fun x => [atTok, atomTok x])).flatten ++ [eotTok], L, [], L⟩ d := by
      rw [addr_spec_loop_unfold]
      dsimp only
      rw [skipcomment_no_comment []
        (fun u rest' he => (joined_head_ok (d :: ds') u rest' he).2)]
      dsimp only [List.map_cons, List.flatten_cons, List.cons_append, List.nil_append]
      rw [if_pos (show atTok.type = node_type.AT from rfl)]
      rw [match_domain_single d _ (joined_head_ok ds')]
      dsimp only
      rw [if_pos (show (([] : List Char)).isEmpty = true from rfl)]
    rw [hstep]
    rw [addr_spec_loop_chain ds' d L L (h2 d (by simp)) (fun x hx => h2 x (by simp [hx]))]
    dsimp only
    have hps := prependChain_spec ds' d
    simp only [chainText, ← hps]
    simp

theorem match_route_addr_canonical {canon : List Char → List Char} {ts : List token}
    {r : result} (h : match_route_addr canon ts = some r) :
    ∃ t rest, (skipcomment ts []).1 = t :: rest ∧ t.type = node_type.LABRACKET ∧
      ((match_route rest = none ∧
          ∃ r2, match_addr_spec canon rest = some r2 ∧ r.addr = r2.addr) ∨
        (∃ r1, match_route rest = some r1 ∧
          ∃ r2, match_addr_spec canon r1.next = some r2 ∧ r.addr = r2.addr)) := by
  rw [match_route_addr] at h
  rcases hsk : skipcomment ts [] with ⟨node, comment⟩
  rw [hsk] at h
  dsimp only at h
  rcases node with _ | ⟨t, rest⟩
  · exact absurd h (by simp)
  · dsimp only at h
    by_cases hlab : t.type = node_type.LABRACKET
    · rw [if_pos hlab] at h
      refine ⟨t, rest, rfl, hlab, ?_⟩
      rcases hrt : match_route rest with _ | r1
      · rw [hrt] at h
        dsimp only at h
        rcases has : match_addr_spec canon rest with _ | r2
        · rw [has] at h; exact absurd h (by simp)
        · rw [has] at h
          dsimp only at h
          rcases hsk3 : skipcomment r2.next (comment ++ r2.comment) with ⟨node3, comment4⟩
          rw [hsk3] at h
          dsimp only at h
          rcases node3 with _ | ⟨u, rest3⟩
          · exact absurd h (by simp)
          · dsimp only at h
            by_cases hrab : u.type = node_type.RABRACKET
            · rw [if_pos hrab] at h
              simp only [Option.some.injEq] at h
              exact Or.inl ⟨rfl, r2, rfl, by rw [← h]⟩
            · rw [if_neg hrab] at h
              exact absurd h (by simp)
      · rw [hrt] at h
        dsimp only at h
        rcases has : match_addr_spec canon r1.next with _ | r2
        · rw [has] at h; exact absurd h (by simp)
        · rw [has] at h
          dsimp only at h
          rcases hsk3 : skipcomment r2.next (comment ++ r1.comment ++ r2.comment)
            with ⟨node3, comment4⟩
          rw [hsk3] at h
          dsimp only at h
          rcases node3 with _ | ⟨u, rest3⟩
          · exact absurd h (by simp)
          · dsimp only at h
            by_cases hrab : u.type = node_type.RABRACKET
            · rw [if_pos hrab] at h
              simp only [Option.some.injEq] at h
              exact Or.inr ⟨r1, rfl, r2, has, by rw [← h]⟩
            · rw [if_neg hrab] at h
              exact absurd h (by simp)
    · rw [if_neg hlab] at h
      exact absurd h (by simp)

theorem unquote_all_atom {s : List Char} (hatom : ∀ c ∈ s, isatom c = true) :
    unquote s = s := by
  have hc : ¬(2 ≤ s.length ∧ s.head? = some '"' ∧ s.getLast? = some '"') := by
    rintro ⟨hl, hh, hlast⟩
    rcases s with _ | ⟨c, s'⟩
    · simp at hh
    · simp only [List.head?_cons, Option.some.injEq] at hh
      have h := hatom c (by simp)
      rw [hh] at h
      exact absurd h (by decide)
  rw [unquote, if_neg hc]
  exact unquote_pairs_no_escape (fun c hcm => by
    have h := hatom c hcm
    have hs := (isatom_not_symbol h).1
    exact (issymbol_false_ne hs).2.2.2.2.2.2.2.2.2.2.1)

/-- C1: the claim states that an addr-spec whose domain is a well-formed
bracket-delimited domain-literal (such as a@[1.2.3.4]) parses successfully
with a single domain-literal token.  The code does not do this:
tokenize_domain_literal returns without advancing the cursor past the
closing bracket (no increment before the return, unlike the comment and
quoted-string scanners, which both consume their closing delimiter), and
the tokenize dispatcher has no case for a bare closing bracket, so the
very next tokenization step fails and parse_addresses returns false on
every input containing a domain-literal.  The grammar rule match_sub_domain
accepts DOMAIN_LITERAL tokens, so the matcher side expects them to exist;
the missing cursor advance is a slip in the scanner.  This theorem records
the behaviour at the failing input a@[1.2.3.4]: the scanner succeeds but
leaves the bracket pending, whole-input tokenization fails, and
parse_addresses reports failure, contradicting the claim. -/
theorem c1_domain_literal_lexical_failure :
    tokenize_domain_literal (toL "[1.2.3.4]") =
      some (⟨node_type.DOMAIN_LITERAL, toL "[1.2.3.4"⟩, toL "]") ∧
    tokenize (toL "a@[1.2.3.4]") = none ∧
    parse_addresses (fun d => d) (toL "a@[1.2.3.4]") [] =
      (false, toL "a@[1.2.3.4]", []) := by
  refine ⟨by decide, ?_, ?_⟩
  · rw [← tokenize_fuel_eq 12 (toL "a@[1.2.3.4]") (by decide)]
    decide
  · rw [← parse_addresses_ev_eq]
    decide

/-- C2 counterexample: the claim quantifies over every local-part raw text
s free of line breaks, but for s = "a b" (which contains a space and no
symbol character) quote leaves s unchanged and tokenization yields two
atom tokens, not one, so the round-trip property fails at this input. -/
theorem c2_counterexample :
    ('\n' ∉ toL "a b") ∧ quoteRoundtripOK (toL "a b") = false := by
  constructor
  · decide
  · have h : tokenize (quote (toL "a b")) =
        some [⟨node_type.ATOM, toL "a"⟩, ⟨node_type.ATOM, toL "b"⟩,
          ⟨node_type.EOT, []⟩] := by
      rw [show quote (toL "a b") = toL "a b" from by decide]
      rw [← tokenize_fuel_eq 4 (toL "a b") (by decide)]
      decide
    rw [quoteRoundtripOK, h]

/-- C2 (amended): for every nonempty local-part raw text s that contains
no line break and no NUL character and that either contains at least one
symbol character or consists entirely of atom characters, tokenizing
quote(s) yields exactly one token besides the end marker, an atom or a
quoted string, whose unquoted content equals s.  (The original claim
omitted the nonemptiness and the atom-or-symbol condition; whitespace or
control characters outside a quoted string break the round trip, as the
counterexample shows.  NUL cannot occur in a C string, which the model
records as an explicit hypothesis.) -/
theorem c2_quote_roundtrip_amended (s : List Char) (h0 : s ≠ []) (h1 : '\n' ∉ s)
    (h2 : '\x00' ∉ s) (h3 : s.any issymbol = true ∨ ∀ c ∈ s, isatom c = true) :
    quoteRoundtripOK s = true := by
  rcases h3 with hsym | hatom
  · rw [quoteRoundtripOK, tokenize_quote_sym hsym h1 h2]
    dsimp only
    have hP : (node_type.QUOTED_STRING = node_type.ATOM ∨
        node_type.QUOTED_STRING = node_type.QUOTED_STRING) ∧
        node_type.EOT = node_type.EOT ∧
        unquote ('"' :: (quote_escape s ++ ['"'])) = s :=
      ⟨Or.inr rfl, rfl, unquote_quote_sym h2⟩
    rw [if_pos hP]
  · have hq : quote s = s := by
      rw [quote, if_neg ?hc]
      case hc =>
        intro hc
        rw [List.any_eq_true] at hc
        obtain ⟨c, hcs, hcsym⟩ := hc
        have h := hatom c hcs
        have hns := (isatom_not_symbol h).1
        rw [hns] at hcsym
        cases hcsym
    rw [quoteRoundtripOK, hq, tokenize_all_atom h0 hatom]
    dsimp only
    have hP : (node_type.ATOM = node_type.ATOM ∨
        node_type.ATOM = node_type.QUOTED_STRING) ∧
        node_type.EOT = node_type.EOT ∧ unquote s = s :=
      ⟨Or.inl rfl, rfl, unquote_all_atom hatom⟩
    rw [if_pos hP]

theorem c2_witness :
    ((toL "a.b" ≠ []) ∧ ('\n' ∉ toL "a.b") ∧ ('\x00' ∉ toL "a.b") ∧
      (toL "a.b").any issymbol = true) ∧
    quoteRoundtripOK (toL "a.b") = true :=
  ⟨⟨by decide, by decide, by decide, by decide⟩,
    c2_quote_roundtrip_amended (toL "a.b") (by decide) (by decide) (by decide)
      (Or.inl (by decide))⟩

/-- C3: an addr-spec with atom local part L and domain segments d1..dn
(n at least 1, each nonempty) chained by AT tokens, evaluated with the
identity domain canonicalizer, matches with display text L@d1@...@dn and
canonical text L@d1@...@dn followed by a line feed, the position advanced
to the end marker: every domain but the last is folded into the routing
prefix and only the last is passed to the canonicalizer.  In particular
input a@b@c parses with canonical a@b@c and a line feed, and display
a@b@c. -/
theorem c3_source_route_accumulation (L : List Char) (ds : List (List Char))
    (h1 : ds ≠ []) (h2 : ∀ d ∈ ds, d ≠ []) :
    match_addr_spec (fun d => d) (addrSpecToks L ds) =
      some ⟨[eotTok], chainText L ds, [], chainText L ds ++ ['\n']⟩ ∧
    parse_addresses (fun d => d) (toL "a@b@c") [] =
      (true, toL "a@b@c", toL "a@b@c\n") :=
  ⟨match_addr_spec_chain L ds h1 h2, by rw [← parse_addresses_ev_eq]; decide⟩

theorem c3_witness :
    match_addr_spec (fun d => d) (addrSpecToks (toL "a") [toL "b", toL "c"]) =
      some ⟨[eotTok], chainText (toL "a") [toL "b", toL "c"], [],
        chainText (toL "a") [toL "b", toL "c"] ++ ['\n']⟩ :=
  (c3_source_route_accumulation (toL "a") [toL "b", toL "c"] (by decide)
    (by decide)).1

/-- C4: parse_addresses is all-or-nothing: whenever tokenization fails or
the top-level addresses rule fails (which covers leftover unconsumed
tokens, since the rule itself fails in that case), parse_addresses returns
false and both output strings are exactly the values passed by the
caller; no partial canonical list is produced. -/
theorem c4_all_or_nothing (canon : List Char → List Char) (line list : List Char)
    (h : tokenize line = none ∨
      ∀ ts, tokenize line = some ts → match_addresses canon ts = none) :
    parse_addresses canon line list = (false, line, list) := by
  rw [parse_addresses]
  rcases htk : tokenize line with _ | toks
  · rfl
  · dsimp only
    rcases h with h | h
    · rw [htk] at h
      cases h
    · rw [h toks htk]

theorem c4_witness :
    parse_addresses (fun d => d) (toL "<") (toL "x") = (false, toL "<", toL "x") := by
  apply c4_all_or_nothing
  refine Or.inr (fun ts hts => ?_)
  have htk : tokenize (toL "<") =
      some [⟨node_type.LABRACKET, []⟩, ⟨node_type.EOT, []⟩] := by
    rw [← tokenize_fuel_eq 2 (toL "<") (by decide)]
    decide
  rw [htk] at hts
  injection hts with hts
  rw [← hts]
  rw [← match_addresses_ev_eq]
  decide

/-- C5: every rule, at any position of any token sequence, either fails
(returning the failure sentinel, which in this model is the none value,
reporting no progress: the caller keeps its own position) or succeeds
returning a position that is a suffix of its input, advanced past exactly
what it consumed; and the two alternations commit to the first successful
alternative, the second alternative being run from the original position
only when the first failed (no re-use of a prefix consumed by a failed
alternative). -/
theorem c5_rule_invariant (canon : List Char → List Char) (ts : List token) :
    (∀ r, match_sub_domain ts = some r → r.next <:+ ts) ∧
    (∀ r, match_word ts = some r → r.next <:+ ts) ∧
    (∀ r, match_domain ts = some r → r.next <:+ ts) ∧
    (∀ r, match_route ts = some r → r.next <:+ ts) ∧
    (∀ r, match_local_part ts = some r → r.next <:+ ts) ∧
    (∀ r, match_addr_spec canon ts = some r → r.next <:+ ts) ∧
    (∀ r, match_route_addr canon ts = some r → r.next <:+ ts) ∧
    (∀ r, match_phrase ts = some r → r.next <:+ ts) ∧
    (∀ r, match_route_spec canon ts = some r → r.next <:+ ts) ∧
    (∀ r, match_mailbox canon ts = some r → r.next <:+ ts) ∧
    (∀ r, match_mailboxes canon ts = some r → r.next <:+ ts) ∧
    (∀ r, match_group canon ts = some r → r.next <:+ ts) ∧
    (∀ r, match_address canon ts = some r → r.next <:+ ts) ∧
    (∀ r, match_addresses canon ts = some r → r.next <:+ ts) ∧
    (∀ r, match_route_spec canon ts = some r → match_mailbox canon ts = some r) ∧
    (match_route_spec canon ts = none →
      match_mailbox canon ts = match_addr_spec canon ts) ∧
    (∀ r, match_group canon ts = some r → match_address canon ts = some r) ∧
    (match_group canon ts = none → match_address canon ts = match_mailbox canon ts) := by
  refine ⟨fun r h => (match_sub_domain_keeps h).1,
    fun r h => (match_word_keeps h).1,
    fun r h => (match_domain_keeps h).1,
    fun r h => (match_route_keeps h).1,
    fun r h => (match_local_part_keeps h).1,
    fun r h => (match_addr_spec_keeps h).1,
    fun r h => (match_route_addr_keeps h).1.1,
    fun r h => (match_phrase_keeps h).1.1,
    fun r h => (match_route_spec_keeps h).1.1,
    fun r h => (match_mailbox_keeps h).1.1,
    fun r h => (match_mailboxes_keeps h).1.1,
    fun r h => (match_group_keeps h).1.1,
    fun r h => (match_address_keeps h).1.1,
    fun r h => (match_addresses_keeps h).1,
    fun r h => by rw [match_mailbox, h],
    fun h => by
      rw [match_mailbox, h]
      rcases h2 : match_addr_spec canon ts with _ | r <;> rfl,
    fun r h => by rw [match_address, h],
    fun h => by
      rw [match_address, h]
      rcases h2 : match_mailbox canon ts with _ | r <;> rfl⟩

theorem c5_witness :
    match_route_spec (fun d => d)
        [⟨node_type.LABRACKET, []⟩, ⟨node_type.ATOM, toL "a"⟩, ⟨node_type.AT, []⟩,
          ⟨node_type.ATOM, toL "b"⟩, ⟨node_type.RABRACKET, []⟩, ⟨node_type.EOT, []⟩] =
      some ⟨[⟨node_type.EOT, []⟩], toL "<a@b>", [], toL "a@b\n"⟩ ∧
    match_mailbox (fun d => d)
        [⟨node_type.LABRACKET, []⟩, ⟨node_type.ATOM, toL "a"⟩, ⟨node_type.AT, []⟩,
          ⟨node_type.ATOM, toL "b"⟩, ⟨node_type.RABRACKET, []⟩, ⟨node_type.EOT, []⟩] =
      some ⟨[⟨node_type.EOT, []⟩], toL "<a@b>", [], toL "a@b\n"⟩ ∧
    [(⟨node_type.EOT, []⟩ : token)] <:+
      [⟨node_type.LABRACKET, []⟩, ⟨node_type.ATOM, toL "a"⟩, ⟨node_type.AT, []⟩,
        ⟨node_type.ATOM, toL "b"⟩, ⟨node_type.RABRACKET, []⟩, ⟨node_type.EOT, []⟩] := by
  have h1 : match_route_spec (fun d => d)
      [⟨node_type.LABRACKET, []⟩, ⟨node_type.ATOM, toL "a"⟩, ⟨node_type.AT, []⟩,
        ⟨node_type.ATOM, toL "b"⟩, ⟨node_type.RABRACKET, []⟩, ⟨node_type.EOT, []⟩] =
      some ⟨[⟨node_type.EOT, []⟩], toL "<a@b>", [], toL "a@b\n"⟩ := by
    rw [← match_route_spec_ev_eq]
    decide
  refine ⟨h1, ?_, ?_⟩
  · exact (c5_rule_invariant (fun d => d)
      _).2.2.2.2.2.2.2.2.2.2.2.2.2.2.1 _ h1
  · exact (c5_rule_invariant (fun d => d) _).2.2.2.2.2.2.2.2.1 _ h1

/-- C6: a route contributes no canonical-address text.  Whenever a
route-addr matches, its input (after the leading comments the rule skips)
starts with the opening angle bracket, behind which the rule ran
match_route and then match_addr_spec at the position that run determines:
directly after the bracket when no route matched there, or at the
position the matched route stopped at; in either case the route-addr's
canonical text equals exactly the canonical text of that inner addr-spec
run — the route's own text appears nowhere in it.  And a route that does
not begin with an AT token matches zero domains and fails. -/
theorem c6_route_contributes_no_canonical (canon : List Char → List Char)
    (ts : List token) :
    (∀ r, match_route_addr canon ts = some r →
      ∃ t rest, (skipcomment ts []).1 = t :: rest ∧ t.type = node_type.LABRACKET ∧
        ((match_route rest = none ∧
            ∃ r2, match_addr_spec canon rest = some r2 ∧ r.addr = r2.addr) ∨
          (∃ r1, match_route rest = some r1 ∧
            ∃ r2, match_addr_spec canon r1.next = some r2 ∧ r.addr = r2.addr))) ∧
    ((∀ t rest, ts = t :: rest → t.type ≠ node_type.AT) → match_route ts = none) :=
  ⟨fun r h => match_route_addr_canonical h, fun h => match_route_no_at h⟩

theorem c6_witness :
    (∃ t rest,
      (skipcomment [⟨node_type.LABRACKET, []⟩, ⟨node_type.ATOM, toL "a"⟩,
        ⟨node_type.AT, []⟩, ⟨node_type.ATOM, toL "b"⟩, ⟨node_type.RABRACKET, []⟩,
        ⟨node_type.EOT, []⟩] []).1 = t :: rest ∧ t.type = node_type.LABRACKET ∧
      ((match_route rest = none ∧
          ∃ r2, match_addr_spec (fun d => d) rest = some r2 ∧
            (⟨[⟨node_type.EOT, []⟩], toL "<a@b>", [], toL "a@b\n"⟩ : result).addr
              = r2.addr) ∨
        (∃ r1, match_route rest = some r1 ∧
          ∃ r2, match_addr_spec (fun d => d) r1.next = some r2 ∧
            (⟨[⟨node_type.EOT, []⟩], toL "<a@b>", [], toL "a@b\n"⟩ : result).addr
              = r2.addr))) ∧
    match_route [⟨node_type.ATOM, toL "a"⟩, ⟨node_type.EOT, []⟩] = none := by
  constructor
  · apply (c6_route_contributes_no_canonical (fun d => d)
      [⟨node_type.LABRACKET, []⟩, ⟨node_type.ATOM, toL "a"⟩, ⟨node_type.AT, []⟩,
        ⟨node_type.ATOM, toL "b"⟩, ⟨node_type.RABRACKET, []⟩,
        ⟨node_type.EOT, []⟩]).1
      ⟨[⟨node_type.EOT, []⟩], toL "<a@b>", [], toL "a@b\n"⟩
    rw [← match_route_addr_ev_eq]
    decide
  · apply (c6_route_contributes_no_canonical (fun d => d)
      [⟨node_type.ATOM, toL "a"⟩, ⟨node_type.EOT, []⟩]).2
    intro t rest he
    injection he with he1 he2
    rw [← he1]
    decide

/-- C7: with the identity canonicalizer, the group input
list: a@b.c, d@e.f; succeeds; the canonical output is each member
canonical text concatenated in order, each line-terminated, and the
display output reconstructs the group as phrase, colon, members joined by
comma and space, semicolon. -/
theorem c7_group_syntax :
    parse_addresses (fun d => d) (toL "list: a@b.c, d@e.f;") [] =
      (true, toL "list: a@b.c, d@e.f;", toL "a@b.c\nd@e.f\n") := by
  rw [← parse_addresses_ev_eq]
  decide

/-- C8: each of the unterminated inputs (quoted string, comment,
domain-literal) makes tokenization fail, and parse_addresses then returns
false with both outputs untouched; by the structure of parse_addresses a
failed tokenization returns before the matcher is ever invoked, so no
partial token sequence reaches it. -/
theorem c8_unterminated_fail :
    (tokenize (toL "\"unterminated") = none ∧
      parse_addresses (fun d => d) (toL "\"unterminated") [] =
        (false, toL "\"unterminated", [])) ∧
    (tokenize (toL "(unterminated") = none ∧
      parse_addresses (fun d => d) (toL "(unterminated") [] =
        (false, toL "(unterminated", [])) ∧
    (tokenize (toL "[unterminated") = none ∧
      parse_addresses (fun d => d) (toL "[unterminated") [] =
        (false, toL "[unterminated", [])) := by
  refine ⟨⟨?_, ?_⟩, ⟨?_, ?_⟩, ?_, ?_⟩
  · rw [← tokenize_fuel_eq 14 (toL "\"unterminated") (by decide)]
    decide
  · rw [← parse_addresses_ev_eq]
    decide
  · rw [← tokenize_fuel_eq 14 (toL "(unterminated") (by decide)]
    decide
  · rw [← parse_addresses_ev_eq]
    decide
  · rw [← tokenize_fuel_eq 14 (toL "[unterminated") (by decide)]
    decide
  · rw [← parse_addresses_ev_eq]
    decide

/-- C9: parse_addresses is a total function of its inputs (every
definition in this development is total: each tokenizer and matcher loop
terminates because every iteration consumes input, which is what the
termination proofs of the loop definitions establish), and it is
deterministic: two calls on the same line return the same success flag,
and on success the same display and canonical outputs regardless of the
initial value of the output list parameter. -/
theorem c9_determinism (canon : List Char → List Char) (line l1 l2 : List Char) :
    (parse_addresses canon line l1).1 = (parse_addresses canon line l2).1 ∧
    ((parse_addresses canon line l1).1 = true →
      parse_addresses canon line l1 = parse_addresses canon line l2) := by
  rw [parse_addresses, parse_addresses]
  rcases tokenize line with _ | toks
  · exact ⟨rfl, fun h => by simp at h⟩
  · dsimp only
    rcases match_addresses canon toks with _ | r
    · exact ⟨rfl, fun h => by simp at h⟩
    · exact ⟨rfl, fun h => rfl⟩

theorem c9_witness :
    (parse_addresses (fun d => d) (toL "a@b") []).1 =
      (parse_addresses (fun d => d) (toL "a@b") (toL "x")).1 ∧
    parse_addresses (fun d => d) (toL "a@b") [] =
      parse_addresses (fun d => d) (toL "a@b") (toL "x") := by
  have h := c9_determinism (fun d => d) (toL "a@b") [] (toL "x")
  refine ⟨h.1, h.2 ?_⟩
  rw [← parse_addresses_ev_eq]
  decide

/-- C10: a successful tokenization produces a sequence of non-end-marker
tokens followed by exactly one end marker; the comment-skipping helper
only consumes comment tokens and every rule only consumes tokens after
testing their kind, none of which is the end marker, so on a sequence
ending in the end marker every successful match result carries a nonempty
position still ending in that end marker — the null-position encoding of
failure in the source therefore never misclassifies a genuine success. -/
theorem c10_end_marker_never_consumed (canon : List Char → List Char)
    (ts : List token) (comment : List Char) :
    (∀ s ts', tokenize s = some ts' →
      ∃ l, ts' = l ++ [(⟨node_type.EOT, []⟩ : token)] ∧
        ∀ u ∈ l, u.type ≠ node_type.EOT) ∧
    ((skipcomment ts comment).1 <:+ ts ∧
      (LastEOT ts → LastEOT (skipcomment ts comment).1 ∧
        (skipcomment ts comment).1 ≠ [])) ∧
    (∀ r, match_sub_domain ts = some r → LastEOT ts → LastEOT r.next ∧ r.next ≠ []) ∧
    (∀ r, match_word ts = some r → LastEOT ts → LastEOT r.next ∧ r.next ≠ []) ∧
    (∀ r, match_domain ts = some r → LastEOT ts → LastEOT r.next ∧ r.next ≠ []) ∧
    (∀ r, match_route ts = some r → LastEOT ts → LastEOT r.next ∧ r.next ≠ []) ∧
    (∀ r, match_local_part ts = some r → LastEOT ts → LastEOT r.next ∧ r.next ≠ []) ∧
    (∀ r, match_addr_spec canon ts = some r → LastEOT ts →
      LastEOT r.next ∧ r.next ≠ []) ∧
    (∀ r, match_route_addr canon ts = some r → LastEOT ts →
      LastEOT r.next ∧ r.next ≠ []) ∧
    (∀ r, match_phrase ts = some r → LastEOT ts → LastEOT r.next ∧ r.next ≠ []) ∧
    (∀ r, match_route_spec canon ts = some r → LastEOT ts →
      LastEOT r.next ∧ r.next ≠ []) ∧
    (∀ r, match_mailbox canon ts = some r → LastEOT ts →
      LastEOT r.next ∧ r.next ≠ []) ∧
    (∀ r, match_mailboxes canon ts = some r → LastEOT ts →
      LastEOT r.next ∧ r.next ≠ []) ∧
    (∀ r, match_group canon ts = some r → LastEOT ts → LastEOT r.next ∧ r.next ≠ []) ∧
    (∀ r, match_address canon ts = some r → LastEOT ts →
      LastEOT r.next ∧ r.next ≠ []) ∧
    (∀ r, match_addresses canon ts = some r → LastEOT ts →
      LastEOT r.next ∧ r.next ≠ []) := by
  refine ⟨fun s ts' h => tokenize_shape s.length s (Nat.le_refl _) ts' h,
    ⟨(skipcomment_keeps ts comment).1, fun he =>
      ⟨(skipcomment_keeps ts comment).2 he, ((skipcomment_keeps ts comment).2 he).ne_nil⟩⟩,
    fun r h he => ⟨(match_sub_domain_keeps h).2 he, ((match_sub_domain_keeps h).2 he).ne_nil⟩,
    fun r h he => ⟨(match_word_keeps h).2 he, ((match_word_keeps h).2 he).ne_nil⟩,
    fun r h he => ⟨(match_domain_keeps h).2 he, ((match_domain_keeps h).2 he).ne_nil⟩,
    fun r h he => ⟨(match_route_keeps h).2 he, ((match_route_keeps h).2 he).ne_nil⟩,
    fun r h he => ⟨(match_local_part_keeps h).2 he,
      ((match_local_part_keeps h).2 he).ne_nil⟩,
    fun r h he => ⟨(match_addr_spec_keeps h).2 he,
      ((match_addr_spec_keeps h).2 he).ne_nil⟩,
    fun r h he => ⟨(match_route_addr_keeps h).1.2 he,
      ((match_route_addr_keeps h).1.2 he).ne_nil⟩,
    fun r h he => ⟨(match_phrase_keeps h).1.2 he, ((match_phrase_keeps h).1.2 he).ne_nil⟩,
    fun r h he => ⟨(match_route_spec_keeps h).1.2 he,
      ((match_route_spec_keeps h).1.2 he).ne_nil⟩,
    fun r h he => ⟨(match_mailbox_keeps h).1.2 he,
      ((match_mailbox_keeps h).1.2 he).ne_nil⟩,
    fun r h he => ⟨(match_mailboxes_keeps h).1.2 he,
      ((match_mailboxes_keeps h).1.2 he).ne_nil⟩,
    fun r h he => ⟨(match_group_keeps h).1.2 he, ((match_group_keeps h).1.2 he).ne_nil⟩,
    fun r h he => ⟨(match_address_keeps h).1.2 he,
      ((match_address_keeps h).1.2 he).ne_nil⟩,
    fun r h he => ⟨(match_addresses_keeps h).2 he,
      ((match_addresses_keeps h).2 he).ne_nil⟩⟩

theorem c10_witness :
    match_sub_domain [⟨node_type.ATOM, toL "a"⟩, ⟨node_type.EOT, []⟩] =
      some ⟨[⟨node_type.EOT, []⟩], toL "a", [], toL "a"⟩ ∧
    LastEOT [(⟨node_type.EOT, []⟩ : token)] ∧
    [(⟨node_type.EOT, []⟩ : token)] ≠ [] := by
  have hm : match_sub_domain [⟨node_type.ATOM, toL "a"⟩, ⟨node_type.EOT, []⟩] =
      some ⟨[⟨node_type.EOT, []⟩], toL "a", [], toL "a"⟩ := by decide
  refine ⟨hm, ?_⟩
  exact (c10_end_marker_never_consumed (fun d => d)
    [⟨node_type.ATOM, toL "a"⟩, ⟨node_type.EOT, []⟩] []).2.2.1 _ hm
    ⟨[⟨node_type.ATOM, toL "a"⟩], ⟨node_type.EOT, []⟩, rfl, rfl⟩
